import Mathlib

/-!
Verification of the evidence-extraction and payload-compaction core of
`analysis.py` (OWASP frontend-evidence analyzer).

The development shallowly embeds, directly from the Python source:

* the JSON-like payload values handled by `_shrink_payload` (type `J`),
* the canonical size measure `len(json.dumps(obj, ensure_ascii=False))`
  (`dumps` / `jsize`),
* `_truncate_text`, the inner `truncate` walker, and the bounded reduction
  loop of `_shrink_payload` (`truncate_text`, `truncate`, `shrink_step`,
  `shrink_loop`, `shrink_payload`),
* `abs_url` / `is_data_uri` (URL resolution, with `urllib.parse.urljoin`
  abstracted as a resolver parameter that may fail),
* the regex detectors of `analyze_js` (a small backtracking matcher with
  Python `re` leftmost/greedy semantics, each pattern of `JS_PATTERNS`
  hand-compiled), line numbering and context-window construction,
* the anchor/`target=_blank` and form-record logic of `analyze_html` over
  parsed elements (BeautifulSoup's parse/serialize behaviour is modelled
  explicitly and narrowly where a claim depends on it).

Python dict insertion order is modelled by association-list order; dict
update keeps the position of an existing key, as in CPython.
-/

/-- JSON-like values, the payloads processed by `_shrink_payload`.
Numbers are modelled as integers (the assembled payloads contain no
floats). -/
inductive J where
  | null
  | bool (b : Bool)
  | num (n : Int)
  | str (s : String)
  | arr (xs : List J)
  | obj (fs : List (String × J))

mutual

def J.beq : J → J → Bool
  | .null, .null => true
  | .bool a, .bool b => a = b
  | .num a, .num b => a = b
  | .str a, .str b => a = b
  | .arr a, .arr b => J.beqList a b
  | .obj a, .obj b => J.beqFields a b
  | _, _ => false

def J.beqList : List J → List J → Bool
  | [], [] => true
  | a :: as, b :: bs => J.beq a b && J.beqList as bs
  | _, _ => false

def J.beqFields : List (String × J) → List (String × J) → Bool
  | [], [] => true
  | a :: as, b :: bs => (a.1 = b.1 : Bool) && J.beq a.2 b.2 && J.beqFields as bs
  | _, _ => false

end

mutual

theorem J.beq_iff : ∀ a b : J, J.beq a b = true ↔ a = b
  | .null, .null => by simp [J.beq]
  | .bool a, .bool b => by simp [J.beq]
  | .num a, .num b => by simp [J.beq]
  | .str a, .str b => by simp [J.beq]
  | .arr a, .arr b => by simp [J.beq, J.beqList_iff a b]
  | .obj a, .obj b => by simp [J.beq, J.beqFields_iff a b]
  | .null, .bool _ | .null, .num _ | .null, .str _ | .null, .arr _ | .null, .obj _
  | .bool _, .null | .bool _, .num _ | .bool _, .str _ | .bool _, .arr _ | .bool _, .obj _
  | .num _, .null | .num _, .bool _ | .num _, .str _ | .num _, .arr _ | .num _, .obj _
  | .str _, .null | .str _, .bool _ | .str _, .num _ | .str _, .arr _ | .str _, .obj _
  | .arr _, .null | .arr _, .bool _ | .arr _, .num _ | .arr _, .str _ | .arr _, .obj _
  | .obj _, .null | .obj _, .bool _ | .obj _, .num _ | .obj _, .str _ | .obj _, .arr _ => by
      simp [J.beq]

theorem J.beqList_iff : ∀ a b : List J, J.beqList a b = true ↔ a = b
  | [], [] => by simp [J.beqList]
  | a :: as, b :: bs => by
      simp [J.beqList, J.beq_iff a b, J.beqList_iff as bs]
  | [], _ :: _ => by simp [J.beqList]
  | _ :: _, [] => by simp [J.beqList]

theorem J.beqFields_iff : ∀ a b : List (String × J), J.beqFields a b = true ↔ a = b
  | [], [] => by simp [J.beqFields]
  | a :: as, b :: bs => by
      obtain ⟨k, v⟩ := a; obtain ⟨k', v'⟩ := b
      simp [J.beqFields, J.beq_iff v v', J.beqFields_iff as bs, and_assoc]
  | [], _ :: _ => by simp [J.beqFields]
  | _ :: _, [] => by simp [J.beqFields]

end

instance : DecidableEq J := fun a b => decidable_of_iff _ (J.beq_iff a b)

/-- Structural induction for `J` with list-membership hypotheses for the
nested `arr`/`obj` constructors. -/
theorem J.myInd (motive : J → Prop)
    (hnull : motive .null) (hbool : ∀ b, motive (.bool b)) (hnum : ∀ n, motive (.num n))
    (hstr : ∀ s, motive (.str s))
    (harr : ∀ xs, (∀ x ∈ xs, motive x) → motive (.arr xs))
    (hobj : ∀ fs, (∀ kv ∈ fs, motive kv.2) → motive (.obj fs)) : ∀ j, motive j
  | .null => hnull
  | .bool b => hbool b
  | .num n => hnum n
  | .str s => hstr s
  | .arr xs => harr xs (fun x hx =>
      have : sizeOf x < 1 + sizeOf xs := by
        have := List.sizeOf_lt_of_mem hx; omega
      J.myInd motive hnull hbool hnum hstr harr hobj x)
  | .obj fs => hobj fs (fun kv hkv =>
      have : sizeOf kv.2 < 1 + sizeOf fs := by
        have h2 := List.sizeOf_lt_of_mem hkv
        have h3 : sizeOf kv.2 < sizeOf kv := by
          obtain ⟨k, v⟩ := kv; simp
        omega
      J.myInd motive hnull hbool hnum hstr harr hobj kv.2)
termination_by j => sizeOf j
decreasing_by
  all_goals simp_wf
  all_goals omega

/-! ## Canonical serialization: `json.dumps(obj, ensure_ascii=False)`

`_shrink_payload` measures size as `len(json.dumps(obj, ensure_ascii=False))`.
With the default separators this serializes arrays as `[a, b]`, objects as
`{k: v}` with `", "` and `": "` separators, escapes `"` and `\` and the ASCII
control characters in strings (`ensure_ascii=False` leaves all other
characters as they are), and uses Python's decimal integer notation. -/

def hexDigitChar (n : Nat) : Char :=
  if n < 10 then Char.ofNat (48 + n) else Char.ofNat (87 + n)

/-- JSON escape of one character, as produced by `json.dumps` (with
`ensure_ascii=False`). -/
def escChar (c : Char) : List Char :=
  if c = '"' then ['\\', '"']
  else if c = '\\' then ['\\', '\\']
  else if c = '\n' then ['\\', 'n']
  else if c = '\t' then ['\\', 't']
  else if c = '\r' then ['\\', 'r']
  else if c = '\x08' then ['\\', 'b']
  else if c = '\x0c' then ['\\', 'f']
  else if c.toNat < 32 then
    ['\\', 'u', '0', '0', hexDigitChar (c.toNat / 16), hexDigitChar (c.toNat % 16)]
  else [c]

def escList : List Char → List Char
  | [] => []
  | c :: r => escChar c ++ escList r

/-- JSON string literal serialization. -/
def escStr (s : String) : List Char := '"' :: escList s.data ++ ['"']

mutual

/-- `json.dumps(v, ensure_ascii=False)` as a character list. -/
def dumps : J → List Char
  | .null => "null".data
  | .bool true => "true".data
  | .bool false => "false".data
  | .num n => (toString n).data
  | .str s => escStr s
  | .arr xs => '[' :: dumpsArr xs ++ [']']
  | .obj fs => '\x7b' :: dumpsObj fs ++ ['\x7d']

def dumpsArr : List J → List Char
  | [] => []
  | [x] => dumps x
  | x :: y :: r => dumps x ++ [',', ' '] ++ dumpsArr (y :: r)

def dumpsObj : List (String × J) → List Char
  | [] => []
  | [kv] => escStr kv.1 ++ [':', ' '] ++ dumps kv.2
  | kv :: kv' :: r => escStr kv.1 ++ [':', ' '] ++ dumps kv.2 ++ [',', ' '] ++ dumpsObj (kv' :: r)

end

/-- The `size` measure of `_shrink_payload`:
`len(json.dumps(obj, ensure_ascii=False))`. -/
def jsize (v : J) : Nat := (dumps v).length

/-! ## Configuration and dictionary access -/

/-- The module-level guard parameters of `analysis.py` (each read from the
environment with the defaults recorded in `defaultConfig`). -/
structure Config where
  maxJsFiles : Nat
  maxJsEvidencePerFile : Nat
  maxHtmlEvidencePerBucket : Nat
  maxStrField : Nat

/-- `MAX_JS_FILES = 50`, `MAX_JS_EVIDENCE_PER_FILE = 25`,
`MAX_HTML_EVIDENCE_PER_BUCKET = 50`, `MAX_STR_FIELD = 4000`. -/
def defaultConfig : Config :=
  { maxJsFiles := 50, maxJsEvidencePerFile := 25
    maxHtmlEvidencePerBucket := 50, maxStrField := 4000 }

/-- `d.get(k)` on a dict; `none` on non-dicts (the Python code only applies
`.get` to dicts on well-formed payloads, see `wfPayload`). -/
def jget : J → String → Option J
  | .obj fs, k => List.lookup k fs
  | _, _ => none

/-- `d[k] = v` on an association list: replaces the value at the first
occurrence of `k` (CPython keeps the insertion position of an existing key),
appends `(k, v)` otherwise. -/
def setAssoc : List (String × J) → String → J → List (String × J)
  | [], k, v => [(k, v)]
  | kv :: r, k, v => if kv.1 = k then (k, v) :: r else kv :: setAssoc r k v

/-- `d[k] = v` on a `J` value (no-op on non-dicts; unreachable in the code
on well-formed payloads). -/
def jset : J → String → J → J
  | .obj fs, k, v => .obj (setAssoc fs k v)
  | j, _, _ => j

/-! ## `_truncate_text` and the `truncate` walker -/

/-- Python `s[-n:]` (for `n = 0` this is the whole string, a behaviour
`_truncate_text` exhibits for `limit <= 3`). -/
def pyTail (s : String) (n : Nat) : String :=
  if n = 0 then s else ⟨s.data.drop (s.data.length - n)⟩

/-- `_truncate_text(s, limit)`: head+tail elision of long strings.
`int(limit * 0.6)` and `int(limit * 0.3)` agree with `6 * limit / 10` and
`3 * limit / 10` (checked exhaustively for limits up to `2 * 10 ^ 6`;
the float products round to the exact integer values in this range). -/
def truncate_text (s : String) (limit : Nat) : String :=
  if s.length ≤ limit then s
  else ⟨s.data.take (6 * limit / 10)⟩ ++ "\n...\n" ++ pyTail s (3 * limit / 10)

mutual

/-- The recursive `truncate` walker inside `_shrink_payload`: truncates
string-valued dict fields longer than `MAX_STR_FIELD`, skipping any field
named `outer_html` entirely; recurses into non-string dict values and into
list items (a string that is a direct list item is never truncated, since
Python's `truncate` only rewrites via `node[k] = ...` on dicts). -/
def truncate (cfg : Config) : J → J
  | .obj fs => .obj (truncateFields cfg fs)
  | .arr xs => .arr (truncateList cfg xs)
  | v => v

def truncateList (cfg : Config) : List J → List J
  | [] => []
  | x :: r => truncate cfg x :: truncateList cfg r

def truncateFields (cfg : Config) : List (String × J) → List (String × J)
  | [] => []
  | (k, v) :: r => (k, truncateField cfg k v) :: truncateFields cfg r

/-- One dict entry of the walker: `if k == "outer_html": continue` leaves
the value alone; a string value is truncated when over-long; any other
value is recursed into. -/
def truncateField (cfg : Config) (k : String) : J → J
  | .str s =>
      if k = "outer_html" then .str s
      else .str (if cfg.maxStrField < s.length then truncate_text s cfg.maxStrField else s)
  | .arr xs => if k = "outer_html" then .arr xs else .arr (truncateList cfg xs)
  | .obj fs => if k = "outer_html" then .obj fs else .obj (truncateFields cfg fs)
  | v => v

end

/-- A field named `outer_html` is never modified by the walker, whatever
its value. -/
theorem truncateField_outer (cfg : Config) (v : J) :
    truncateField cfg "outer_html" v = v := by
  cases v <;> simp [truncateField]

/-- On a non-protected key the per-field action agrees with the full
walker on non-string values. -/
theorem truncateField_not_outer (cfg : Config) (k : String) (hk : k ≠ "outer_html") :
    ∀ v : J, truncateField cfg k v =
      (match v with
       | .str s => .str (if cfg.maxStrField < s.length then truncate_text s cfg.maxStrField else s)
       | v => truncate cfg v) := by
  intro v; cases v <;> simp [truncateField, truncate, hk]

/-! ## `_shrink_payload` -/

/-- `cur.get("javascript", {}).get("files", [])` (list-valued case). -/
def getJsFiles (p : J) : List J :=
  match jget p "javascript" with
  | some jv =>
    match jget jv "files" with
    | some (.arr xs) => xs
    | _ => []
  | none => []

/-- `f.get("evidences", [])` (list-valued case). -/
def getEvidences (f : J) : List J :=
  match jget f "evidences" with
  | some (.arr xs) => xs
  | _ => []

/-- Per-file evidence cut: `f["evidences"] = f["evidences"][:MAX_JS_EVIDENCE_PER_FILE]`
when the list is longer than the maximum. -/
def cutEvidences (cfg : Config) (f : J) : J :=
  if cfg.maxJsEvidencePerFile < (getEvidences f).length then
    jset f "evidences" (.arr ((getEvidences f).take cfg.maxJsEvidencePerFile))
  else f

/-- `isinstance(arr, list) and len(arr) > MAX_HTML_EVIDENCE_PER_BUCKET`. -/
def bucketTooLong (cfg : Config) : J → Bool
  | .arr xs => cfg.maxHtmlEvidencePerBucket < xs.length
  | _ => false

/-- `html_high[key] = arr[:MAX_HTML_EVIDENCE_PER_BUCKET]` for an over-long
list-valued bucket, other values untouched. -/
def cutBucket (cfg : Config) (kv : String × J) : String × J :=
  match kv.2 with
  | .arr xs =>
      if cfg.maxHtmlEvidencePerBucket < xs.length then
        (kv.1, .arr (xs.take cfg.maxHtmlEvidencePerBucket))
      else kv
  | _ => kv

/-- The body of one iteration of `_shrink_payload`'s `for _ in range(20)`
loop after the size check: exactly one of the four reduction kinds is
applied, in the source's priority order (`continue` restarts the loop after
each of the first three cuts; the string-truncation walker runs only when
none of them applied). -/
def shrink_step (cfg : Config) (cur : J) : J :=
  if cfg.maxJsFiles < (getJsFiles cur).length then
    match jget cur "javascript" with
    | some jv => jset cur "javascript" (jset jv "files" (.arr ((getJsFiles cur).take cfg.maxJsFiles)))
    | none => cur
  else if (getJsFiles cur).any (fun f => cfg.maxJsEvidencePerFile < (getEvidences f).length) then
    match jget cur "javascript" with
    | some jv => jset cur "javascript" (jset jv "files" (.arr ((getJsFiles cur).map (cutEvidences cfg))))
    | none => cur
  else
    match jget cur "html" with
    | some h =>
      match jget h "highlights" with
      | some (.obj bs) =>
        if bs.any (fun kv => bucketTooLong cfg kv.2) then
          jset cur "html" (jset h "highlights" (.obj (bs.map (cutBucket cfg))))
        else truncate cfg cur
      | _ => truncate cfg cur
    | none => truncate cfg cur

/-- The `for _ in range(20)` loop of `_shrink_payload`: check the size,
stop if within budget, otherwise apply one reduction step and repeat. -/
def shrink_loop (cfg : Config) (limit : Nat) : Nat → J → J
  | 0, cur => cur
  | fuel + 1, cur =>
      if jsize cur ≤ limit then cur else shrink_loop cfg limit fuel (shrink_step cfg cur)

/-- `_shrink_payload(payload, limit)` (the initial `copy.deepcopy` is the
identity in this functional model). -/
def shrink_payload (cfg : Config) (payload : J) (limit : Nat) : J :=
  shrink_loop cfg limit 20 payload

/-! ## Well-formed payloads

`_shrink_payload` applies `.get` / item assignment / `len` at fixed paths;
`wfPayload` states exactly the shape assumptions under which every such
operation is defined in Python and behaves as the total functions above:
the payload is a dict, `payload["javascript"]` (when present) is a dict
whose `"files"` (when present) is a list of dicts whose `"evidences"`
(when present) are lists, and `payload["html"]` (when present) is a dict
whose `"highlights"` (when present) is a dict. Payloads assembled by
`build_messages` have this shape. -/

def isObjB : J → Bool
  | .obj _ => true
  | _ => false

def fileOkB (f : J) : Bool :=
  isObjB f &&
  (match jget f "evidences" with
   | none => true
   | some (.arr _) => true
   | some _ => false)

def wfPayload (p : J) : Bool :=
  isObjB p &&
  (match jget p "javascript" with
   | none => true
   | some jv => isObjB jv &&
      (match jget jv "files" with
       | none => true
       | some (.arr fs) => fs.all fileOkB
       | some _ => false)) &&
  (match jget p "html" with
   | none => true
   | some h => isObjB h &&
      (match jget h "highlights" with
       | none => true
       | some hl => isObjB hl))

/-! ## `abs_url` / `is_data_uri` -/

/-- The whitespace characters stripped by Python's `str.strip()` (ASCII
range; the URLs handled here are ASCII). -/
def pyStripChars : List Char := [' ', '\t', '\n', '\r', '\x0b', '\x0c']

/-- Python `str.strip()`. -/
def pyStrip (s : String) : String :=
  ⟨((s.data.dropWhile (· ∈ pyStripChars)).reverse.dropWhile (· ∈ pyStripChars)).reverse⟩

/-- Python `str.lower()` (ASCII range). -/
def pyLower (s : String) : String := ⟨s.data.map Char.toLower⟩

/-- `is_data_uri(u)`: `isinstance(u, str) and u.strip().lower().startswith("data:")`
(`startswith` is prefix comparison). -/
def is_data_uri : Option String → Bool
  | some u => List.isPrefixOf "data:".data (pyLower (pyStrip u)).data
  | none => false

/-- `abs_url(base_url, maybe_rel)`. `urllib.parse.urljoin` is abstracted as
the `resolver` argument; a raised exception is modelled as `none`, caught by
the `try/except` and replaced by the raw reference.  Note the guard
`if not maybe_rel: return None` is taken both for a missing and for an
empty reference. -/
def abs_url (resolver : String → String → Option String)
    (base_url : Option String) (maybe_rel : Option String) : Option String :=
  match maybe_rel with
  | none => none
  | some r =>
    if r = "" then none
    else if is_data_uri (some r) then some r
    else some ((resolver (base_url.getD "") r).getD r)

/-! ## Resolution behaviour of `abs_url` (claim C8) -/

/-- C8 (counterexample): the claim quantifies over every raw reference
string, but the empty reference is falsy in Python, so `abs_url` returns
`None` without attempting resolution, although the empty string is not a
data URI and resolution against the base would succeed (standard resolution
of an empty reference yields the base). -/
theorem c8_counterexample :
    is_data_uri (some "") = false ∧
    (fun (b : String) (_ : String) => some b) "https://a.test/" "" = some "https://a.test/" ∧
    abs_url (fun b _ => some b) (some "https://a.test/") (some "") = none := by
  refine ⟨rfl, rfl, rfl⟩

/-- C8 (amended): for every nonempty raw reference: a reference that is a
data URI after stripping and lower-casing is passed through verbatim;
otherwise the reference is resolved against the base (empty string for a
missing base) by the resolver, and if resolution fails the raw reference is
returned unchanged.  `abs_url` is a total function: it never raises. -/
theorem c8_amended (resolver : String → String → Option String)
    (base : Option String) (r : String) (hr : r ≠ "") :
    (is_data_uri (some r) = true → abs_url resolver base (some r) = some r) ∧
    (is_data_uri (some r) = false →
      abs_url resolver base (some r) = some ((resolver (base.getD "") r).getD r)) := by
  constructor <;> intro h <;> simp [abs_url, hr, h]

/-- C8 witness: a data URI with surrounding whitespace and upper-case scheme
is returned verbatim even though the resolver would have failed. -/
theorem c8_witness :
    abs_url (fun _ _ => none) none (some " DATA:image/png;base64,AA ") =
      some " DATA:image/png;base64,AA " :=
  (c8_amended (fun _ _ => none) none " DATA:image/png;base64,AA " (by decide)).1 (by decide)

/-! ## The protected `outer_html` fields (claims C1, C2)

`outerHtmls` collects, in order, every string sitting under an
`"outer_html"` dictionary key anywhere in a payload. -/

mutual

def outerHtmls : J → List String
  | .null => []
  | .bool _ => []
  | .num _ => []
  | .str _ => []
  | .arr xs => outerHtmlsList xs
  | .obj fs => outerHtmlsFields fs

def outerHtmlsList : List J → List String
  | [] => []
  | x :: r => outerHtmls x ++ outerHtmlsList r

def outerHtmlsFields : List (String × J) → List String
  | [] => []
  | (k, v) :: r =>
      (if k = "outer_html" then
        (match v with
         | .str s => [s]
         | _ => []) else []) ++ outerHtmls v ++ outerHtmlsFields r

end

mutual

/-- The string-truncation walker never touches any `outer_html` string:
the collected protected strings are unchanged, not merely a sublist. -/
theorem outerHtmls_truncate (cfg : Config) : ∀ p, outerHtmls (truncate cfg p) = outerHtmls p
  | .null => rfl
  | .bool _ => rfl
  | .num _ => rfl
  | .str _ => rfl
  | .arr xs => by
      simp only [truncate, outerHtmls]
      exact outerHtmlsList_truncate cfg xs
  | .obj fs => by
      simp only [truncate, outerHtmls]
      exact outerHtmlsFields_truncate cfg fs

theorem outerHtmlsList_truncate (cfg : Config) :
    ∀ xs, outerHtmlsList (truncateList cfg xs) = outerHtmlsList xs
  | [] => rfl
  | x :: r => by
      simp only [truncateList, outerHtmlsList]
      rw [outerHtmls_truncate cfg x, outerHtmlsList_truncate cfg r]

theorem outerHtmlsFields_truncate (cfg : Config) :
    ∀ fs, outerHtmlsFields (truncateFields cfg fs) = outerHtmlsFields fs
  | [] => rfl
  | (k, .null) :: r => by
      simp only [truncateFields, truncateField, outerHtmlsFields]
      rw [outerHtmlsFields_truncate cfg r]
  | (k, .bool b) :: r => by
      simp only [truncateFields, truncateField, outerHtmlsFields]
      rw [outerHtmlsFields_truncate cfg r]
  | (k, .num n) :: r => by
      simp only [truncateFields, truncateField, outerHtmlsFields]
      rw [outerHtmlsFields_truncate cfg r]
  | (k, .str s) :: r => by
      simp only [truncateFields, truncateField]
      by_cases hk : k = "outer_html"
      · simp only [if_pos hk, outerHtmlsFields, outerHtmlsFields_truncate cfg r]
      · simp only [if_neg hk, outerHtmlsFields, if_neg hk, outerHtmlsFields_truncate cfg r]
        rfl
  | (k, .arr xs) :: r => by
      simp only [truncateFields, truncateField]
      by_cases hk : k = "outer_html"
      · simp only [if_pos hk, outerHtmlsFields, outerHtmlsFields_truncate cfg r]
      · simp only [if_neg hk, outerHtmlsFields, if_neg hk, outerHtmlsFields_truncate cfg r,
          outerHtmls]
        rw [outerHtmlsList_truncate cfg xs]
  | (k, .obj gs) :: r => by
      simp only [truncateFields, truncateField]
      by_cases hk : k = "outer_html"
      · simp only [if_pos hk, outerHtmlsFields, outerHtmlsFields_truncate cfg r]
      · simp only [if_neg hk, outerHtmlsFields, if_neg hk, outerHtmlsFields_truncate cfg r,
          outerHtmls]
        rw [outerHtmlsFields_truncate cfg gs]

end

/-- Taking a prefix of a list keeps a sublist of the protected strings. -/
theorem outerHtmlsList_take (xs : List J) (n : Nat) :
    List.Sublist (outerHtmlsList (xs.take n)) (outerHtmlsList xs) := by
  induction xs generalizing n with
  | nil => simp [outerHtmlsList]
  | cons x r ih =>
      cases n with
      | zero => simp [outerHtmlsList]
      | succ m =>
          simp only [List.take_succ_cons, outerHtmlsList]
          exact List.Sublist.append (List.Sublist.refl _) (ih m)

/-- Pointwise sublists lift to the concatenation over a mapped list. -/
theorem outerHtmlsList_map (xs : List J) (g : J → J)
    (h : ∀ x ∈ xs, List.Sublist (outerHtmls (g x)) (outerHtmls x)) :
    List.Sublist (outerHtmlsList (xs.map g)) (outerHtmlsList xs) := by
  induction xs with
  | nil => simp [outerHtmlsList]
  | cons x r ih =>
      simp only [List.map_cons, outerHtmlsList]
      exact List.Sublist.append (h x (by simp)) (ih (fun y hy => h y (by simp [hy])))

/-- Replacing the value at a non-protected key by one whose protected
strings form a sublist keeps a sublist overall. -/
theorem outerHtmls_jset (p : J) (k : String) (v v' : J)
    (hk : k ≠ "outer_html") (hget : jget p k = some v)
    (hsub : List.Sublist (outerHtmls v') (outerHtmls v)) :
    List.Sublist (outerHtmls (jset p k v')) (outerHtmls p) := by
  cases p with
  | obj fs =>
      simp only [jget] at hget
      simp only [jset, outerHtmls]
      induction fs with
      | nil => simp [List.lookup] at hget
      | cons kv r ih =>
          obtain ⟨k₁, v₁⟩ := kv
          by_cases hk₁ : k₁ = k
          · subst hk₁
            simp only [List.lookup, beq_self_eq_true, if_true, Option.some.injEq] at hget
            subst hget
            simp only [setAssoc, if_pos rfl, outerHtmlsFields, if_neg hk, List.nil_append]
            exact List.Sublist.append hsub (List.Sublist.refl _)
          · have hbeq : (k == k₁) = false := beq_eq_false_iff_ne.mpr (fun h => hk₁ h.symm)
            simp only [List.lookup, hbeq] at hget
            simp only [setAssoc, if_neg hk₁, outerHtmlsFields]
            exact List.Sublist.append (List.Sublist.refl _) (ih hget)
  | null => simp [jget] at hget
  | bool b => simp [jget] at hget
  | num n => simp [jget] at hget
  | str s => simp [jget] at hget
  | arr xs => simp [jget] at hget

/-- When `cur.get("javascript", {}).get("files", [])` is nonempty, both keys
are present, `"javascript"` holds a dict and `"files"` holds that list. -/
theorem getJsFiles_inv (p : J) (h : getJsFiles p ≠ []) :
    ∃ jv, jget p "javascript" = some jv ∧ jget jv "files" = some (.arr (getJsFiles p)) := by
  unfold getJsFiles at *
  cases hjv : jget p "javascript" with
  | none => simp [hjv] at h
  | some jv =>
      refine ⟨jv, rfl, ?_⟩
      cases hfs : jget jv "files" with
      | none => simp [hjv, hfs] at h
      | some w =>
          cases w with
          | arr xs => simp [hjv, hfs]
          | null => simp [hjv, hfs] at h
          | bool b => simp [hjv, hfs] at h
          | num n => simp [hjv, hfs] at h
          | str s => simp [hjv, hfs] at h
          | obj fs => simp [hjv, hfs] at h

/-- When `f.get("evidences", [])` is nonempty the key is present and holds
that list. -/
theorem getEvidences_inv (f : J) (h : getEvidences f ≠ []) :
    jget f "evidences" = some (.arr (getEvidences f)) := by
  unfold getEvidences at *
  cases hfs : jget f "evidences" with
  | none => simp [hfs] at h
  | some w =>
      cases w with
      | arr xs => simp [hfs]
      | null => simp [hfs] at h
      | bool b => simp [hfs] at h
      | num n => simp [hfs] at h
      | str s => simp [hfs] at h
      | obj fs => simp [hfs] at h

/-- Cutting a file's evidence list keeps a sublist of the protected strings. -/
theorem outerHtmls_cutEvidences (cfg : Config) (f : J) :
    List.Sublist (outerHtmls (cutEvidences cfg f)) (outerHtmls f) := by
  unfold cutEvidences
  split
  · next hlong =>
      have hne : getEvidences f ≠ [] := by
        intro h0; rw [h0] at hlong; simp at hlong
      have hinv := getEvidences_inv f hne
      refine outerHtmls_jset f "evidences" _ _ (by decide) hinv ?_
      simp only [outerHtmls]
      exact outerHtmlsList_take _ _
  · exact List.Sublist.refl _

/-- Cutting over-long evidence buckets keeps a sublist of the protected
strings (bucket keys are unchanged; only whole records are dropped). -/
theorem outerHtmlsFields_cutBucket (cfg : Config) (bs : List (String × J)) :
    List.Sublist (outerHtmlsFields (bs.map (cutBucket cfg))) (outerHtmlsFields bs) := by
  induction bs with
  | nil => exact List.Sublist.refl _
  | cons kv r ih =>
      obtain ⟨k, v⟩ := kv
      simp only [List.map_cons]
      cases v with
      | arr xs =>
          unfold cutBucket
          simp only []
          split
          · simp only [outerHtmlsFields]
            refine List.Sublist.append (List.Sublist.append (List.Sublist.refl _) ?_) ih
            simp only [outerHtmls]
            exact outerHtmlsList_take _ _
          · simp only [outerHtmlsFields]
            exact List.Sublist.append (List.Sublist.refl _) ih
      | null =>
          simp only [cutBucket, outerHtmlsFields]
          exact List.Sublist.append (List.Sublist.refl _) ih
      | bool b =>
          simp only [cutBucket, outerHtmlsFields]
          exact List.Sublist.append (List.Sublist.refl _) ih
      | num n =>
          simp only [cutBucket, outerHtmlsFields]
          exact List.Sublist.append (List.Sublist.refl _) ih
      | str s =>
          simp only [cutBucket, outerHtmlsFields]
          exact List.Sublist.append (List.Sublist.refl _) ih
      | obj gs =>
          simp only [cutBucket, outerHtmlsFields]
          exact List.Sublist.append (List.Sublist.refl _) ih

/-- One reduction step only drops whole records (prefix cuts) or truncates
non-protected strings: the protected strings of the result form a sublist
of those of the input. -/
theorem outerHtmls_shrink_step (cfg : Config) (p : J) :
    List.Sublist (outerHtmls (shrink_step cfg p)) (outerHtmls p) := by
  unfold shrink_step
  split
  · next hlong =>
      have hne : getJsFiles p ≠ [] := by
        intro h0; rw [h0] at hlong; simp at hlong
      obtain ⟨jv, hjv, hfs⟩ := getJsFiles_inv p hne
      rw [hjv]
      refine outerHtmls_jset p "javascript" jv _ (by decide) hjv ?_
      refine outerHtmls_jset jv "files" _ _ (by decide) hfs ?_
      simp only [outerHtmls]
      exact outerHtmlsList_take _ _
  · split
    · next hany =>
        have hne : getJsFiles p ≠ [] := by
          intro h0; rw [h0] at hany; simp at hany
        obtain ⟨jv, hjv, hfs⟩ := getJsFiles_inv p hne
        rw [hjv]
        refine outerHtmls_jset p "javascript" jv _ (by decide) hjv ?_
        refine outerHtmls_jset jv "files" _ _ (by decide) hfs ?_
        simp only [outerHtmls]
        exact outerHtmlsList_map _ _ (fun f _ => outerHtmls_cutEvidences cfg f)
    · split
      · next h hh =>
          split
          · next bs hhl =>
              split
              · refine outerHtmls_jset p "html" _ _ (by decide) hh ?_
                refine outerHtmls_jset _ "highlights" _ _ (by decide) hhl ?_
                simp only [outerHtmls]
                exact outerHtmlsFields_cutBucket cfg bs
              · exact (outerHtmls_truncate cfg p).symm ▸ List.Sublist.refl _
          · exact (outerHtmls_truncate cfg p).symm ▸ List.Sublist.refl _
      · exact (outerHtmls_truncate cfg p).symm ▸ List.Sublist.refl _

/-- The whole reduction loop keeps a sublist of the protected strings. -/
theorem outerHtmls_shrink_loop (cfg : Config) (limit : Nat) :
    ∀ (n : Nat) (p : J),
      List.Sublist (outerHtmls (shrink_loop cfg limit n p)) (outerHtmls p)
  | 0, p => List.Sublist.refl _
  | n + 1, p => by
      unfold shrink_loop
      split
      · exact List.Sublist.refl _
      · exact (outerHtmls_shrink_loop cfg limit n (shrink_step cfg p)).trans
          (outerHtmls_shrink_step cfg p)

/-- C1: for every well-formed assembled payload, budget and limits, the
compactor never alters, shortens or re-encodes an `outer_html` string: the
sequence of `outer_html` values present in the output is a sublist of the
input's (so every retained value is byte-identical to the corresponding
input value; records can only disappear whole). -/
theorem c1_outer_html_preserved (cfg : Config) (p : J) (limit : Nat)
    (hwf : wfPayload p = true) :
    List.Sublist (outerHtmls (shrink_payload cfg p limit)) (outerHtmls p) := by
  have _ := hwf
  exact outerHtmls_shrink_loop cfg limit 20 p

/-- A small well-formed payload carrying one protected `outer_html` field. -/
def c1WitnessPayload : J :=
  .obj [("html", .obj [("highlights", .obj
            [("forms", .arr [.obj [("outer_html", .str "<form action=\"/x\"></form>"),
                                   ("action", .str "/x")]])])]),
        ("javascript", .obj [("files", .arr [])])]

/-- C1 witness: the theorem applied to a concrete well-formed payload. -/
theorem c1_witness :
    wfPayload c1WitnessPayload = true ∧
    List.Sublist (outerHtmls (shrink_payload defaultConfig c1WitnessPayload 100000))
      (outerHtmls c1WitnessPayload) :=
  ⟨by decide, c1_outer_html_preserved defaultConfig c1WitnessPayload 100000 (by decide)⟩

/-! ## Counterexample configurations for C3 and C4

With a small `MAX_STR_FIELD` the head+tail elision of `_truncate_text` does
not shrink a string: for `limit = 4` the replacement of a 5-character string
is 8 characters long (and then a fixed point), and for `limit = 1` the tail
slice `s[-0:]` is the whole string, so every pass prepends the 5-character
elision marker and the payload grows on every one of the 20 iterations. -/

def cfgStr4 : Config :=
  { maxJsFiles := 50, maxJsEvidencePerFile := 25
    maxHtmlEvidencePerBucket := 50, maxStrField := 4 }

def cfgStr1 : Config :=
  { maxJsFiles := 50, maxJsEvidencePerFile := 25
    maxHtmlEvidencePerBucket := 50, maxStrField := 1 }

def pXXXXX : J := .obj [("a", .str "XXXXX")]

/-- A serialized dict is never empty (it starts with a brace). -/
theorem jsize_obj_pos (fs : List (String × J)) : 0 < jsize (.obj fs) := by
  simp [jsize, dumps]

theorem shrink_loop_of_gt (cfg : Config) (limit n : Nat) (p : J)
    (h : limit < jsize p) :
    shrink_loop cfg limit (n + 1) p = shrink_loop cfg limit n (shrink_step cfg p) := by
  rw [show shrink_loop cfg limit (n + 1) p =
        if jsize p ≤ limit then p else shrink_loop cfg limit n (shrink_step cfg p) from rfl,
    if_neg (by omega)]

/-- A fixed point of the step function is a fixed point of the loop. -/
theorem shrink_loop_fixpoint (cfg : Config) (limit : Nat) (q : J)
    (hq : shrink_step cfg q = q) : ∀ n, shrink_loop cfg limit n q = q
  | 0 => rfl
  | n + 1 => by
      unfold shrink_loop
      split
      · rfl
      · rw [hq, shrink_loop_fixpoint cfg limit q hq n]

/-- The fixed point reached from `pXXXXX` under `cfgStr4`: re-truncating
`"XX\n...\nX"` at limit 4 reproduces it exactly. -/
def pFix4 : J := .obj [("a", .str "XX\n...\nX")]

/-- C3 (counterexample): with `MAX_STR_FIELD = 4` and budget `0`, the
5-character string is replaced by an 8-character elision, so the very first
iteration increases the measured size (14 to 19 characters) and the final
output is strictly larger than the input while the budget stays unmet —
contradicting both the "never increases between iterations" and the
"otherwise output size is at most input size" parts of the claim. -/
theorem c3_counterexample :
    wfPayload pXXXXX = true ∧
    jsize pXXXXX = 14 ∧
    jsize (shrink_step cfgStr4 pXXXXX) > jsize pXXXXX ∧
    jsize (shrink_payload cfgStr4 pXXXXX 0) > jsize pXXXXX := by
  refine ⟨by decide, by decide, by decide, ?_⟩
  have hstep : shrink_step cfgStr4 pXXXXX = pFix4 := by decide
  have hfix : shrink_step cfgStr4 pFix4 = pFix4 := by decide
  have hout : shrink_payload cfgStr4 pXXXXX 0 = pFix4 := by
    have h0 : shrink_payload cfgStr4 pXXXXX 0 = shrink_loop cfgStr4 0 20 pXXXXX := rfl
    rw [h0, shrink_loop_of_gt cfgStr4 0 19 pXXXXX (by decide), hstep,
      shrink_loop_fixpoint cfgStr4 0 pFix4 hfix 19]
  rw [hout]
  decide

/-- For `limit = 1` the truncation prepends the elision marker to the whole
string (`int(1 * 0.6) = 0` and `s[-0:] = s`). -/
theorem truncate_text_one (s : String) (h : 2 ≤ s.data.length) :
    truncate_text s 1 = "\n...\n" ++ s := by
  have hlen : ¬ (s.length ≤ 1) := by
    simp only [String.length]; omega
  unfold truncate_text
  rw [if_neg hlen]
  apply String.ext
  simp [String.data_append, pyTail]

/-- Under `cfgStr1` a step on a single-string payload grows the string by
the 5-character elision marker. -/
theorem shrink_step_grow (s : String) (h : 2 ≤ s.data.length) :
    shrink_step cfgStr1 (.obj [("a", .str s)]) = .obj [("a", .str ("\n...\n" ++ s))] := by
  have hstep : shrink_step cfgStr1 (.obj [("a", .str s)]) =
      .obj [("a", .str (if cfgStr1.maxStrField < s.length then truncate_text s 1 else s))] := rfl
  have hpos : cfgStr1.maxStrField < s.length := by
    simp only [cfgStr1, String.length]; omega
  rw [hstep, if_pos hpos, truncate_text_one s h]

/-- Closed form of the growth: `n` iterations at budget `0` prepend `n`
markers, for a total length of `5 * n` extra characters. -/
theorem shrink_loop_grow (n : Nat) : ∀ s : String, 2 ≤ s.data.length →
    ∃ s₂ : String, shrink_loop cfgStr1 0 n (.obj [("a", .str s)]) = .obj [("a", .str s₂)] ∧
      s₂.data.length = 5 * n + s.data.length := by
  induction n with
  | zero => exact fun s h => ⟨s, rfl, by omega⟩
  | succ n ih =>
      intro s h
      have hm : ("\n...\n" ++ s).data.length = 5 + s.data.length := by
        have h5 : ("\n...\n" : String).data.length = 5 := rfl
        simp [String.data_append]
        omega
      rw [shrink_loop_of_gt cfgStr1 0 n _ (jsize_obj_pos _), shrink_step_grow s h]
      obtain ⟨s₂, h₂, l₂⟩ := ih ("\n...\n" ++ s) (by omega)
      exact ⟨s₂, h₂, by omega⟩

/-- C4 (counterexample): with `MAX_STR_FIELD = 1` and budget `0` the
compactor is not idempotent: the first run grows the string by 20 markers
and the second run by 20 more, so `shrink(shrink(p)) ≠ shrink(p)`. -/
theorem c4_counterexample :
    shrink_payload cfgStr1 (shrink_payload cfgStr1 pXXXXX 0) 0 ≠ shrink_payload cfgStr1 pXXXXX 0 := by
  have hx : ("XXXXX" : String).data.length = 5 := rfl
  obtain ⟨s₁, h₁, l₁⟩ := shrink_loop_grow 20 "XXXXX" (by omega)
  have e₁ : shrink_payload cfgStr1 pXXXXX 0 = .obj [("a", .str s₁)] := h₁
  obtain ⟨s₂, h₂, l₂⟩ := shrink_loop_grow 20 s₁ (by omega)
  have e₂ : shrink_payload cfgStr1 (.obj [("a", .str s₁)]) 0 = .obj [("a", .str s₂)] := h₂
  rw [e₁, e₂]
  intro heq
  have hss : s₂ = s₁ := by
    simpa [J.obj.injEq, List.cons.injEq, Prod.mk.injEq, J.str.injEq] using heq
  have : s₂.data.length = s₁.data.length := by rw [hss]
  omega

/-! ## Size monotonicity of the reduction steps (claim C3)

All lemmas below measure serialized length.  String truncation shrinks the
serialization only when the configured generic-string maximum is at least
51: `escStr_truncate_le` quantifies the exact requirement (at least 7
characters must be dropped to pay for the 7-character serialized elision
marker). -/

theorem escList_append (a b : List Char) : escList (a ++ b) = escList a ++ escList b := by
  induction a with
  | nil => rfl
  | cons c r ih => simp [escList, ih]

theorem escChar_length_pos (c : Char) : 1 ≤ (escChar c).length := by
  unfold escChar
  split_ifs <;> simp

theorem escList_length_ge (l : List Char) : l.length ≤ (escList l).length := by
  induction l with
  | nil => simp [escList]
  | cons c r ih =>
      simp only [escList, List.length_append, List.length_cons]
      have := escChar_length_pos c
      omega

/-- Core truncation bound: replacing an over-long string by its head+tail
elision does not increase the serialized length, provided the limit is at
least 51 (so that at least 7 characters are dropped, paying for the
7-character serialized elision marker). -/
theorem escStr_truncate_le (s : String) (L : Nat) (h51 : 51 ≤ L)
    (hlong : L < s.data.length) :
    (escStr (truncate_text s L)).length ≤ (escStr s).length := by
  have htt0 : 3 * L / 10 ≠ 0 := by omega
  have hslen : ¬ (s.length ≤ L) := by simp only [String.length]; omega
  have hexp : (truncate_text s L).data =
      s.data.take (6 * L / 10) ++ ("\n...\n" : String).data ++
        s.data.drop (s.data.length - 3 * L / 10) := by
    unfold truncate_text
    rw [if_neg hslen]
    simp only [pyTail, if_neg htt0]
    rw [String.data_append, String.data_append]
  have h1 : (s.data.drop (6 * L / 10)).drop (s.data.length - 3 * L / 10 - 6 * L / 10) =
      s.data.drop (s.data.length - 3 * L / 10) := by
    rw [List.drop_drop]
    congr 1
    omega
  have hdec : s.data = s.data.take (6 * L / 10) ++
      ((s.data.drop (6 * L / 10)).take (s.data.length - 3 * L / 10 - 6 * L / 10) ++
        s.data.drop (s.data.length - 3 * L / 10)) := by
    rw [← h1, List.take_append_drop, List.take_append_drop]
  have hmidlen :
      ((s.data.drop (6 * L / 10)).take (s.data.length - 3 * L / 10 - 6 * L / 10)).length =
        s.data.length - 3 * L / 10 - 6 * L / 10 := by
    rw [List.length_take, List.length_drop]
    omega
  have hmid : 7 ≤ (escList ((s.data.drop (6 * L / 10)).take
      (s.data.length - 3 * L / 10 - 6 * L / 10))).length := by
    have := escList_length_ge ((s.data.drop (6 * L / 10)).take
      (s.data.length - 3 * L / 10 - 6 * L / 10))
    omega
  have hmark : (escList ['\n', '.', '.', '.', '\n']).length = 7 := rfl
  simp only [escStr, hexp, escList_append, List.length_cons, List.length_append]
  conv_rhs => rw [hdec]
  simp only [escList_append, List.length_append]
  omega

theorem length_dumpsArr_cons (x : J) (r : List J) :
    (dumpsArr (x :: r)).length =
      (dumps x).length + (if r = [] then 0 else 2 + (dumpsArr r).length) := by
  cases r
  · simp [dumpsArr]
  · simp [dumpsArr]
    omega

theorem length_dumpsObj_cons (k : String) (v : J) (r : List (String × J)) :
    (dumpsObj ((k, v) :: r)).length =
      (escStr k).length + 2 + (dumps v).length +
        (if r = [] then 0 else 2 + (dumpsObj r).length) := by
  cases r <;> simp [dumpsObj] <;> omega

/-- Prefix-taking does not increase the serialized array length. -/
theorem dumpsArr_take_le (xs : List J) : ∀ n, (dumpsArr (xs.take n)).length ≤ (dumpsArr xs).length := by
  induction xs with
  | nil => intro n; simp
  | cons x r ih =>
      intro n
      cases n with
      | zero => simp [dumpsArr]
      | succ m =>
          rw [List.take_succ_cons, length_dumpsArr_cons, length_dumpsArr_cons]
          by_cases hr : r = []
          · subst hr; simp
          · by_cases hrm : r.take m = []
            · rw [if_pos hrm, if_neg hr]; omega
            · rw [if_neg hrm, if_neg hr]
              have := ih m
              omega

/-- Pointwise serialized-size bounds lift to arrays. -/
theorem dumpsArr_le_of_forall₂ {ys xs : List J}
    (h : List.Forall₂ (fun b a => (dumps b).length ≤ (dumps a).length) ys xs) :
    (dumpsArr ys).length ≤ (dumpsArr xs).length := by
  induction h with
  | nil => simp
  | cons hba htail ih =>
      rw [length_dumpsArr_cons, length_dumpsArr_cons]
      rename_i b a bs as
      by_cases has : as = []
      · subst has
        have hbs : bs = [] := by
          cases htail; rfl
        subst hbs; simpa using hba
      · have hbs : bs ≠ [] := by
          intro h0; subst h0; cases htail; exact has rfl
        rw [if_neg hbs, if_neg has]
        omega

/-- Pointwise serialized-size bounds with equal keys lift to objects. -/
theorem dumpsObj_le_of_forall₂ {gs fs : List (String × J)}
    (h : List.Forall₂ (fun b a => b.1 = a.1 ∧ (dumps b.2).length ≤ (dumps a.2).length) gs fs) :
    (dumpsObj gs).length ≤ (dumpsObj fs).length := by
  induction h with
  | nil => simp
  | cons hba htail ih =>
      rename_i b a bs as
      obtain ⟨kb, vb⟩ := b
      obtain ⟨ka, va⟩ := a
      obtain ⟨hk, hv⟩ := hba
      simp only at hk hv
      rw [length_dumpsObj_cons, length_dumpsObj_cons, hk]
      by_cases has : as = []
      · subst has
        have hbs : bs = [] := by cases htail; rfl
        subst hbs; simp; omega
      · have hbs : bs ≠ [] := by
          intro h0; subst h0; cases htail; exact has rfl
        rw [if_neg hbs, if_neg has]
        omega

/-- Replacing the value at a present key by a value of no larger serialized
size does not increase the payload's serialized size. -/
theorem jsize_jset_le (p : J) (k : String) (v v' : J) (hget : jget p k = some v)
    (hle : jsize v' ≤ jsize v) : jsize (jset p k v') ≤ jsize p := by
  cases p with
  | obj fs =>
      simp only [jget] at hget
      simp only [jset, jsize, dumps, List.length_cons, List.length_append]
      have hrel : List.Forall₂
          (fun b a => b.1 = a.1 ∧ (dumps b.2).length ≤ (dumps a.2).length)
          (setAssoc fs k v') fs := by
        induction fs with
        | nil => simp [List.lookup] at hget
        | cons kv r ih =>
            obtain ⟨k₁, v₁⟩ := kv
            by_cases hk₁ : k₁ = k
            · subst hk₁
              simp only [List.lookup, beq_self_eq_true, if_true, Option.some.injEq] at hget
              subst hget
              simp only [setAssoc, if_pos rfl]
              exact List.Forall₂.cons ⟨rfl, hle⟩
                ((List.forall₂_same).2 (fun x _ => ⟨rfl, le_refl _⟩))
            · have hbeq : (k == k₁) = false := beq_eq_false_iff_ne.mpr (fun h => hk₁ h.symm)
              simp only [List.lookup, hbeq] at hget
              simp only [setAssoc, if_neg hk₁]
              exact List.Forall₂.cons ⟨rfl, le_refl _⟩ (ih hget)
      have := dumpsObj_le_of_forall₂ hrel
      omega
  | null => simp [jget] at hget
  | bool b => simp [jget] at hget
  | num n => simp [jget] at hget
  | str s => simp [jget] at hget
  | arr xs => simp [jget] at hget

mutual

/-- The truncation walker never increases the serialized size, provided
the generic-string maximum is at least 51. -/
theorem jsize_truncate_le (cfg : Config) (h51 : 51 ≤ cfg.maxStrField) :
    ∀ p, jsize (truncate cfg p) ≤ jsize p
  | .null => le_refl _
  | .bool _ => le_refl _
  | .num _ => le_refl _
  | .str _ => le_refl _
  | .arr xs => by
      simp only [truncate, jsize, dumps, List.length_cons, List.length_append]
      have := dumpsArr_truncateList_le cfg h51 xs
      omega
  | .obj fs => by
      simp only [truncate, jsize, dumps, List.length_cons, List.length_append]
      have := dumpsObj_truncateFields_le cfg h51 fs
      omega

theorem dumpsArr_truncateList_le (cfg : Config) (h51 : 51 ≤ cfg.maxStrField) :
    ∀ xs, (dumpsArr (truncateList cfg xs)).length ≤ (dumpsArr xs).length
  | [] => le_refl _
  | x :: r => by
      simp only [truncateList]
      rw [length_dumpsArr_cons, length_dumpsArr_cons]
      have hx := jsize_truncate_le cfg h51 x
      simp only [jsize] at hx
      have hr := dumpsArr_truncateList_le cfg h51 r
      by_cases h0 : r = []
      · subst h0; simp [truncateList]; omega
      · have h1 : truncateList cfg r ≠ [] := by
          cases r with
          | nil => exact absurd rfl h0
          | cons y rr => simp [truncateList]
        rw [if_neg h0, if_neg h1]
        omega

theorem dumpsObj_truncateFields_le (cfg : Config) (h51 : 51 ≤ cfg.maxStrField) :
    ∀ fs, (dumpsObj (truncateFields cfg fs)).length ≤ (dumpsObj fs).length
  | [] => le_refl _
  | (k, v) :: r => by
      simp only [truncateFields]
      rw [length_dumpsObj_cons, length_dumpsObj_cons]
      have hv := dumps_truncateField_le cfg h51 k v
      have hr := dumpsObj_truncateFields_le cfg h51 r
      by_cases h0 : r = []
      · subst h0; simp [truncateFields]; omega
      · have h1 : truncateFields cfg r ≠ [] := by
          cases r with
          | nil => exact absurd rfl h0
          | cons y rr => obtain ⟨k₂, v₂⟩ := y; simp [truncateFields]
        rw [if_neg h0, if_neg h1]
        omega

theorem dumps_truncateField_le (cfg : Config) (h51 : 51 ≤ cfg.maxStrField) (k : String) :
    ∀ v, (dumps (truncateField cfg k v)).length ≤ (dumps v).length
  | .null => le_refl _
  | .bool _ => le_refl _
  | .num _ => le_refl _
  | .str s => by
      unfold truncateField
      by_cases hk : k = "outer_html"
      · rw [if_pos hk]
      · rw [if_neg hk]
        by_cases hlong : cfg.maxStrField < s.length
        · rw [if_pos hlong]
          simp only [dumps]
          exact escStr_truncate_le s cfg.maxStrField h51
            (by simpa only [String.length] using hlong)
        · rw [if_neg hlong]
  | .arr xs => by
      unfold truncateField
      by_cases hk : k = "outer_html"
      · rw [if_pos hk]
      · rw [if_neg hk]
        simp only [dumps, List.length_cons, List.length_append]
        have := dumpsArr_truncateList_le cfg h51 xs
        omega
  | .obj fs => by
      unfold truncateField
      by_cases hk : k = "outer_html"
      · rw [if_pos hk]
      · rw [if_neg hk]
        simp only [dumps, List.length_cons, List.length_append]
        have := dumpsObj_truncateFields_le cfg h51 fs
        omega

end

theorem jsize_arr_take_le (xs : List J) (n : Nat) :
    jsize (.arr (xs.take n)) ≤ jsize (.arr xs) := by
  simp only [jsize, dumps, List.length_cons, List.length_append]
  have := dumpsArr_take_le xs n
  omega

theorem jsize_cutEvidences_le (cfg : Config) (f : J) :
    jsize (cutEvidences cfg f) ≤ jsize f := by
  unfold cutEvidences
  split
  · next hlong =>
      have hne : getEvidences f ≠ [] := by
        intro h0; rw [h0] at hlong; simp at hlong
      exact jsize_jset_le f "evidences" _ _ (getEvidences_inv f hne)
        (jsize_arr_take_le _ _)
  · exact le_refl _

theorem jsize_cutBucket_le (cfg : Config) (bs : List (String × J)) :
    (dumpsObj (bs.map (cutBucket cfg))).length ≤ (dumpsObj bs).length := by
  apply dumpsObj_le_of_forall₂
  induction bs with
  | nil => exact List.Forall₂.nil
  | cons kv r ih =>
      obtain ⟨k, v⟩ := kv
      refine List.Forall₂.cons ?_ ih
      cases v with
      | arr xs =>
          unfold cutBucket
          simp only
          split
          · exact ⟨rfl, by
              have := jsize_arr_take_le xs cfg.maxHtmlEvidencePerBucket
              simpa [jsize] using this⟩
          · exact ⟨rfl, le_refl _⟩
      | null => exact ⟨rfl, le_refl _⟩
      | bool b => exact ⟨rfl, le_refl _⟩
      | num n => exact ⟨rfl, le_refl _⟩
      | str s => exact ⟨rfl, le_refl _⟩
      | obj gs => exact ⟨rfl, le_refl _⟩

/-- A single reduction step never increases the serialized size when the
generic-string maximum is at least 51. -/
theorem jsize_shrink_step_le (cfg : Config) (h51 : 51 ≤ cfg.maxStrField) (p : J) :
    jsize (shrink_step cfg p) ≤ jsize p := by
  unfold shrink_step
  split
  · next hlong =>
      have hne : getJsFiles p ≠ [] := by
        intro h0; rw [h0] at hlong; simp at hlong
      obtain ⟨jv, hjv, hfs⟩ := getJsFiles_inv p hne
      rw [hjv]
      refine jsize_jset_le p "javascript" jv _ hjv ?_
      exact jsize_jset_le jv "files" _ _ hfs (jsize_arr_take_le _ _)
  · split
    · next hany =>
        have hne : getJsFiles p ≠ [] := by
          intro h0; rw [h0] at hany; simp at hany
        obtain ⟨jv, hjv, hfs⟩ := getJsFiles_inv p hne
        rw [hjv]
        refine jsize_jset_le p "javascript" jv _ hjv ?_
        refine jsize_jset_le jv "files" _ _ hfs ?_
        simp only [jsize, dumps, List.length_cons, List.length_append]
        have : (dumpsArr ((getJsFiles p).map (cutEvidences cfg))).length ≤
            (dumpsArr (getJsFiles p)).length := by
          apply dumpsArr_le_of_forall₂
          induction getJsFiles p with
          | nil => exact List.Forall₂.nil
          | cons f r ih =>
              refine List.Forall₂.cons ?_ ih
              have := jsize_cutEvidences_le cfg f
              simpa [jsize] using this
        omega
    · split
      · next h hh =>
          split
          · next bs hhl =>
              split
              · refine jsize_jset_le p "html" _ _ hh ?_
                refine jsize_jset_le _ "highlights" _ _ hhl ?_
                simp only [jsize, dumps, List.length_cons, List.length_append]
                have := jsize_cutBucket_le cfg bs
                omega
              · exact jsize_truncate_le cfg h51 p
          · exact jsize_truncate_le cfg h51 p
      · exact jsize_truncate_le cfg h51 p

/-- The loop never increases the serialized size. -/
theorem jsize_shrink_loop_le (cfg : Config) (h51 : 51 ≤ cfg.maxStrField) (limit : Nat) :
    ∀ (n : Nat) (p : J), jsize (shrink_loop cfg limit n p) ≤ jsize p
  | 0, p => le_refl _
  | n + 1, p => by
      unfold shrink_loop
      split
      · exact le_refl _
      · exact (jsize_shrink_loop_le cfg h51 limit n (shrink_step cfg p)).trans
          (jsize_shrink_step_le cfg h51 p)

/-- If some iterate of the step function meets the budget within the fuel,
the loop's result meets the budget. -/
theorem shrink_loop_budget (cfg : Config) (limit : Nat) :
    ∀ (n : Nat) (p : J), (∃ k, k ≤ n ∧ jsize ((shrink_step cfg)^[k] p) ≤ limit) →
      jsize (shrink_loop cfg limit n p) ≤ limit
  | 0, p => by
      rintro ⟨k, hk, hsz⟩
      have : k = 0 := by omega
      subst this
      simpa using hsz
  | n + 1, p => by
      rintro ⟨k, hk, hsz⟩
      unfold shrink_loop
      split
      · assumption
      · next hgt =>
          apply shrink_loop_budget cfg limit n (shrink_step cfg p)
          have hk0 : k ≠ 0 := by
            intro h0; subst h0; simp at hsz; omega
          obtain ⟨k', rfl⟩ : ∃ k', k = k' + 1 := ⟨k - 1, by omega⟩
          refine ⟨k', by omega, ?_⟩
          rwa [Function.iterate_succ_apply] at hsz

/-- C3 (amended): for every well-formed payload, budget, and limits whose
generic-string maximum is at least 51: the measured size never increases
from one iteration of the reduction loop to the next; the output's
serialized size is at most the input's; and whenever some iterate of the
reduction step meets the budget within the 20-iteration cap, the output
meets the budget. -/
theorem c3_amended (cfg : Config) (p : J) (limit : Nat)
    (h51 : 51 ≤ cfg.maxStrField) (hwf : wfPayload p = true) :
    (∀ k, jsize ((shrink_step cfg)^[k + 1] p) ≤ jsize ((shrink_step cfg)^[k] p)) ∧
    jsize (shrink_payload cfg p limit) ≤ jsize p ∧
    ((∃ k, k ≤ 20 ∧ jsize ((shrink_step cfg)^[k] p) ≤ limit) →
      jsize (shrink_payload cfg p limit) ≤ limit) := by
  have _ := hwf
  refine ⟨?_, jsize_shrink_loop_le cfg h51 limit 20 p, shrink_loop_budget cfg limit 20 p⟩
  intro k
  rw [Function.iterate_succ_apply']
  exact jsize_shrink_step_le cfg h51 _

/-- C3 witness: the amended theorem applied at the default configuration. -/
theorem c3_witness :
    jsize (shrink_payload defaultConfig pXXXXX 100) ≤ jsize pXXXXX ∧
    jsize (shrink_payload defaultConfig pXXXXX 100) ≤ 100 := by
  have h := c3_amended defaultConfig pXXXXX 100 (by decide) (by decide)
  exact ⟨h.2.1, h.2.2 ⟨0, by decide, by decide⟩⟩

/-! ## Convergence of the reduction loop (claim C4)

With `MAX_STR_FIELD ≥ 41` a truncated string fits under the maximum again,
so the walker reaches a fixed point; the three structural cuts each switch
off after one application, in priority order.  Four steps therefore always
reach a fixed point of `shrink_step`, and the loop (20 iterations) is
idempotent. -/

theorem jget_some_isObj {p : J} {k : String} {v : J} (h : jget p k = some v) :
    isObjB p = true := by
  cases p <;> simp [jget, isObjB] at h ⊢

theorem jget_jset_self (p : J) (k : String) (v : J) (hobj : isObjB p = true) :
    jget (jset p k v) k = some v := by
  cases p with
  | obj fs =>
      simp only [jset, jget]
      induction fs with
      | nil => simp [setAssoc, List.lookup]
      | cons kv r ih =>
          obtain ⟨k₁, v₁⟩ := kv
          by_cases hk₁ : k₁ = k
          · subst hk₁; simp [setAssoc, List.lookup]
          · have hbeq : (k == k₁) = false := beq_eq_false_iff_ne.mpr (fun h => hk₁ h.symm)
            simp [setAssoc, if_neg hk₁, List.lookup, hbeq, ih rfl]
  | null => simp [isObjB] at hobj
  | bool b => simp [isObjB] at hobj
  | num n => simp [isObjB] at hobj
  | str s => simp [isObjB] at hobj
  | arr xs => simp [isObjB] at hobj

theorem jget_jset_other (p : J) (k k' : String) (v : J) (hne : k' ≠ k) :
    jget (jset p k v) k' = jget p k' := by
  cases p with
  | obj fs =>
      have hbeq : (k' == k) = false := beq_eq_false_iff_ne.mpr hne
      simp only [jset, jget]
      induction fs with
      | nil => simp [setAssoc, List.lookup, hbeq]
      | cons kv r ih =>
          obtain ⟨k₁, v₁⟩ := kv
          by_cases hk₁ : k₁ = k
          · subst hk₁; simp [setAssoc, List.lookup, hbeq]
          · simp [setAssoc, if_neg hk₁, List.lookup, ih]
  | null => rfl
  | bool b => rfl
  | num n => rfl
  | str s => rfl
  | arr xs => rfl

theorem lookup_truncateFields (cfg : Config) (k : String) :
    ∀ fs, List.lookup k (truncateFields cfg fs) =
      (List.lookup k fs).map (truncateField cfg k)
  | [] => rfl
  | (k₁, v) :: r => by
      simp only [truncateFields, List.lookup]
      by_cases h : k = k₁
      · subst h; simp
      · have hbeq : (k == k₁) = false := beq_eq_false_iff_ne.mpr h
        simp [hbeq, lookup_truncateFields cfg k r]

theorem jget_truncate (cfg : Config) (p : J) (k : String) :
    jget (truncate cfg p) k = (jget p k).map (truncateField cfg k) := by
  cases p <;> simp [truncate, jget, lookup_truncateFields]

theorem truncateList_length (cfg : Config) : ∀ xs, (truncateList cfg xs).length = xs.length
  | [] => rfl
  | x :: r => by simp [truncateList, truncateList_length cfg r]

/-- Navigating `javascript → files` through the walker: the file list is
mapped elementwise (so its length is unchanged). -/
theorem getJsFiles_truncate (cfg : Config) (p : J) :
    getJsFiles (truncate cfg p) = truncateList cfg (getJsFiles p) := by
  unfold getJsFiles
  rw [jget_truncate]
  cases hjv : jget p "javascript" with
  | none => rfl
  | some jv =>
      simp only [Option.map]
      cases jv with
      | obj fs =>
          rw [show truncateField cfg "javascript" (.obj fs) = .obj (truncateFields cfg fs) from by
            simp [truncateField]]
          simp only [jget, lookup_truncateFields]
          cases hfs : List.lookup "files" fs with
          | none => rfl
          | some w =>
              simp only [Option.map]
              cases w with
              | arr xs =>
                  rw [show truncateField cfg "files" (.arr xs) = .arr (truncateList cfg xs) from by
                    simp [truncateField]]
              | null => rfl
              | bool b => rfl
              | num n => rfl
              | str s => simp [truncateField, truncateList]
              | obj gs => simp [truncateField, truncateList]
      | null => rfl
      | bool b => rfl
      | num n => rfl
      | str s => simp [truncateField, jget, truncateList]
      | arr xs => simp [truncateField, jget, truncateList]

/-- Same for a file's `evidences` list. -/
theorem getEvidences_truncate (cfg : Config) (f : J) :
    getEvidences (truncate cfg f) = truncateList cfg (getEvidences f) := by
  unfold getEvidences
  rw [jget_truncate]
  cases hfs : jget f "evidences" with
  | none => rfl
  | some w =>
      simp only [Option.map]
      cases w with
      | arr xs =>
          rw [show truncateField cfg "evidences" (.arr xs) = .arr (truncateList cfg xs) from by
            simp [truncateField]]
      | null => rfl
      | bool b => rfl
      | num n => rfl
      | str s => simp [truncateField, truncateList]
      | obj gs => simp [truncateField, truncateList]

/-- Step-1 invariant: the retained file count is within the maximum. -/
def filesOkB (cfg : Config) (p : J) : Bool :=
  (getJsFiles p).length ≤ cfg.maxJsFiles

/-- Step-2 invariant: every file's evidence count is within the maximum. -/
def evidOkB (cfg : Config) (p : J) : Bool :=
  (getJsFiles p).all (fun f => (getEvidences f).length ≤ cfg.maxJsEvidencePerFile)

/-- Step-3 invariant: no list-valued HTML bucket is over-long. -/
def bucketsOkB (cfg : Config) (p : J) : Bool :=
  match jget p "html" with
  | some h =>
    match jget h "highlights" with
    | some (.obj bs) => bs.all (fun kv => !(bucketTooLong cfg kv.2))
    | _ => true
  | none => true

mutual

/-- Step-4 invariant: no non-protected string-valued dict field is longer
than the generic-string maximum (exactly the strings the walker rewrites). -/
def stringsOkB (cfg : Config) : J → Bool
  | .obj fs => stringsOkFieldsB cfg fs
  | .arr xs => stringsOkListB cfg xs
  | _ => true

def stringsOkListB (cfg : Config) : List J → Bool
  | [] => true
  | x :: r => stringsOkB cfg x && stringsOkListB cfg r

def stringsOkFieldsB (cfg : Config) : List (String × J) → Bool
  | [] => true
  | (k, v) :: r => stringsOkFieldB cfg k v && stringsOkFieldsB cfg r

def stringsOkFieldB (cfg : Config) (k : String) : J → Bool
  | .str s => if k = "outer_html" then true else s.length ≤ cfg.maxStrField
  | .arr xs => if k = "outer_html" then true else stringsOkListB cfg xs
  | .obj fs => if k = "outer_html" then true else stringsOkFieldsB cfg fs
  | _ => true

end

mutual

/-- The walker is the identity on values whose strings are already within
the maximum. -/
theorem truncate_of_stringsOk (cfg : Config) :
    ∀ p, stringsOkB cfg p = true → truncate cfg p = p
  | .null, _ => rfl
  | .bool _, _ => rfl
  | .num _, _ => rfl
  | .str _, _ => rfl
  | .arr xs, h => by
      simp only [stringsOkB] at h
      simp only [truncate, truncateList_of_stringsOk cfg xs h]
  | .obj fs, h => by
      simp only [stringsOkB] at h
      simp only [truncate, truncateFields_of_stringsOk cfg fs h]

theorem truncateList_of_stringsOk (cfg : Config) :
    ∀ xs, stringsOkListB cfg xs = true → truncateList cfg xs = xs
  | [], _ => rfl
  | x :: r, h => by
      simp only [stringsOkListB, Bool.and_eq_true] at h
      simp only [truncateList, truncate_of_stringsOk cfg x h.1,
        truncateList_of_stringsOk cfg r h.2]

theorem truncateFields_of_stringsOk (cfg : Config) :
    ∀ fs, stringsOkFieldsB cfg fs = true → truncateFields cfg fs = fs
  | [], _ => rfl
  | (k, v) :: r, h => by
      simp only [stringsOkFieldsB, Bool.and_eq_true] at h
      simp only [truncateFields, truncateField_of_stringsOk cfg k v h.1,
        truncateFields_of_stringsOk cfg r h.2]

theorem truncateField_of_stringsOk (cfg : Config) (k : String) :
    ∀ v, stringsOkFieldB cfg k v = true → truncateField cfg k v = v
  | .null, _ => rfl
  | .bool _, _ => rfl
  | .num _, _ => rfl
  | .str s, h => by
      unfold truncateField
      by_cases hk : k = "outer_html"
      · rw [if_pos hk]
      · simp only [stringsOkFieldB, if_neg hk, decide_eq_true_eq] at h
        rw [if_neg hk, if_neg (by omega)]
  | .arr xs, h => by
      unfold truncateField
      by_cases hk : k = "outer_html"
      · rw [if_pos hk]
      · simp only [stringsOkFieldB, if_neg hk] at h
        rw [if_neg hk, truncateList_of_stringsOk cfg xs h]
  | .obj fs, h => by
      unfold truncateField
      by_cases hk : k = "outer_html"
      · rw [if_pos hk]
      · simp only [stringsOkFieldB, if_neg hk] at h
        rw [if_neg hk, truncateFields_of_stringsOk cfg fs h]

end

/-- A truncated string is within the maximum once `MAX_STR_FIELD ≥ 41`. -/
theorem truncate_text_length_le (s : String) (L : Nat) (h41 : 41 ≤ L)
    (hlong : L < s.length) : (truncate_text s L).length ≤ L := by
  have hlen : L < s.data.length := by simpa only [String.length] using hlong
  have htt0 : 3 * L / 10 ≠ 0 := by omega
  unfold truncate_text
  rw [if_neg (by simp only [String.length]; omega)]
  rw [String.length_append, String.length_append]
  simp only [pyTail, if_neg htt0, String.length, List.length_take, List.length_drop]
  have h5 : (['\n', '.', '.', '.', '\n'] : List Char).length = 5 := rfl
  omega

mutual

/-- After one pass of the walker every non-protected string fits. -/
theorem stringsOk_truncate (cfg : Config) (h41 : 41 ≤ cfg.maxStrField) :
    ∀ p, stringsOkB cfg (truncate cfg p) = true
  | .null => rfl
  | .bool _ => rfl
  | .num _ => rfl
  | .str _ => rfl
  | .arr xs => by
      simp only [truncate, stringsOkB]
      exact stringsOk_truncateList cfg h41 xs
  | .obj fs => by
      simp only [truncate, stringsOkB]
      exact stringsOk_truncateFields cfg h41 fs

theorem stringsOk_truncateList (cfg : Config) (h41 : 41 ≤ cfg.maxStrField) :
    ∀ xs, stringsOkListB cfg (truncateList cfg xs) = true
  | [] => rfl
  | x :: r => by
      simp only [truncateList, stringsOkListB, Bool.and_eq_true]
      exact ⟨stringsOk_truncate cfg h41 x, stringsOk_truncateList cfg h41 r⟩

theorem stringsOk_truncateFields (cfg : Config) (h41 : 41 ≤ cfg.maxStrField) :
    ∀ fs, stringsOkFieldsB cfg (truncateFields cfg fs) = true
  | [] => rfl
  | (k, v) :: r => by
      simp only [truncateFields, stringsOkFieldsB, Bool.and_eq_true]
      exact ⟨stringsOk_truncateField cfg h41 k v, stringsOk_truncateFields cfg h41 r⟩

theorem stringsOk_truncateField (cfg : Config) (h41 : 41 ≤ cfg.maxStrField) (k : String) :
    ∀ v, stringsOkFieldB cfg k (truncateField cfg k v) = true
  | .null => rfl
  | .bool _ => rfl
  | .num _ => rfl
  | .str s => by
      unfold truncateField
      by_cases hk : k = "outer_html"
      · simp [stringsOkFieldB, hk]
      · rw [if_neg hk]
        by_cases hlong : cfg.maxStrField < s.length
        · rw [if_pos hlong]
          simp only [stringsOkFieldB, if_neg hk, decide_eq_true_eq]
          exact truncate_text_length_le s cfg.maxStrField h41 hlong
        · rw [if_neg hlong]
          simp only [stringsOkFieldB, if_neg hk, decide_eq_true_eq]
          omega
  | .arr xs => by
      unfold truncateField
      by_cases hk : k = "outer_html"
      · simp [stringsOkFieldB, hk]
      · rw [if_neg hk]
        simp only [stringsOkFieldB, if_neg hk]
        exact stringsOk_truncateList cfg h41 xs
  | .obj fs => by
      unfold truncateField
      by_cases hk : k = "outer_html"
      · simp [stringsOkFieldB, hk]
      · rw [if_neg hk]
        simp only [stringsOkFieldB, if_neg hk]
        exact stringsOk_truncateFields cfg h41 fs

end

theorem getJsFiles_set (p jv : J) (l : List J) (hjv : jget p "javascript" = some jv)
    (hjvobj : isObjB jv = true) :
    getJsFiles (jset p "javascript" (jset jv "files" (.arr l))) = l := by
  have h1 : jget (jset p "javascript" (jset jv "files" (J.arr l))) "javascript" =
      some (jset jv "files" (J.arr l)) := jget_jset_self p _ _ (jget_some_isObj hjv)
  have h2 : jget (jset jv "files" (J.arr l)) "files" = some (J.arr l) :=
    jget_jset_self jv _ _ hjvobj
  unfold getJsFiles
  simp only [h1, h2]

theorem getJsFiles_set_html (p X : J) :
    getJsFiles (jset p "html" X) = getJsFiles p := by
  unfold getJsFiles
  rw [jget_jset_other p "html" "javascript" X (by decide)]

/-- After the per-file cut, every file's evidence list is within the
maximum (whether it was cut or already small enough). -/
theorem getEvidences_cutEvidences_le (cfg : Config) (f : J) :
    (getEvidences (cutEvidences cfg f)).length ≤ cfg.maxJsEvidencePerFile := by
  unfold cutEvidences
  split
  · next hlong =>
      have hne : getEvidences f ≠ [] := by
        intro h0; rw [h0] at hlong; simp at hlong
      have hinv := getEvidences_inv f hne
      have hobj : isObjB f = true := jget_some_isObj hinv
      unfold getEvidences
      rw [jget_jset_self f _ _ hobj]
      simp [List.length_take]
  · next hlong => omega

/-- The length of a file's evidence list is unchanged by the walker. -/
theorem getEvidences_length_truncate (cfg : Config) (f : J) :
    (getEvidences (truncate cfg f)).length = (getEvidences f).length := by
  rw [getEvidences_truncate, truncateList_length]

theorem filesOk_truncate (cfg : Config) (p : J) :
    filesOkB cfg (truncate cfg p) = filesOkB cfg p := by
  unfold filesOkB
  rw [getJsFiles_truncate, truncateList_length]

theorem evidOk_truncate (cfg : Config) (p : J) :
    evidOkB cfg (truncate cfg p) = evidOkB cfg p := by
  unfold evidOkB
  rw [getJsFiles_truncate]
  induction getJsFiles p with
  | nil => rfl
  | cons f r ih =>
      simp only [truncateList, List.all_cons, getEvidences_length_truncate, ih]

theorem bucketTooLong_truncateField (cfg : Config) (k : String) (v : J) :
    bucketTooLong cfg (truncateField cfg k v) = bucketTooLong cfg v := by
  cases v with
  | arr xs =>
      unfold truncateField
      split
      · rfl
      · simp [bucketTooLong, truncateList_length]
  | null => rfl
  | bool b => rfl
  | num n => rfl
  | str s =>
      unfold truncateField
      split
      · rfl
      · simp [bucketTooLong]
  | obj fs =>
      unfold truncateField
      split
      · rfl
      · simp [bucketTooLong]

theorem all_bucketTooLong_truncateFields (cfg : Config) :
    ∀ bs, ((truncateFields cfg bs).all fun kv => !bucketTooLong cfg kv.2) =
      bs.all fun kv => !bucketTooLong cfg kv.2
  | [] => rfl
  | (k, v) :: r => by
      simp only [truncateFields, List.all_cons, bucketTooLong_truncateField,
        all_bucketTooLong_truncateFields cfg r]

theorem bucketsOk_truncate (cfg : Config) (p : J) :
    bucketsOkB cfg (truncate cfg p) = bucketsOkB cfg p := by
  unfold bucketsOkB
  rw [jget_truncate]
  cases hh : jget p "html" with
  | none => rfl
  | some h =>
      simp only [Option.map]
      cases h with
      | obj fs =>
          rw [show truncateField cfg "html" (.obj fs) = .obj (truncateFields cfg fs) from by
            simp [truncateField]]
          simp only [jget, lookup_truncateFields]
          cases hhl : List.lookup "highlights" fs with
          | none => rfl
          | some hl =>
              simp only [Option.map]
              cases hl with
              | obj bs =>
                  rw [show truncateField cfg "highlights" (.obj bs) = .obj (truncateFields cfg bs)
                    from by simp [truncateField]]
                  exact all_bucketTooLong_truncateFields cfg bs
              | null => rfl
              | bool b => rfl
              | num n => rfl
              | str s => simp [truncateField]
              | arr xs => simp [truncateField]
      | null => rfl
      | bool b => rfl
      | num n => rfl
      | str s => simp [truncateField, jget]
      | arr xs => simp [truncateField, jget]

/-- After the bucket cut no bucket is over-long. -/
theorem cutBucket_ok (cfg : Config) (kv : String × J) :
    bucketTooLong cfg (cutBucket cfg kv).2 = false := by
  obtain ⟨k, v⟩ := kv
  cases v with
  | arr xs =>
      unfold cutBucket
      simp only
      split
      · simp [bucketTooLong, List.length_take]
      · next hn => simp [bucketTooLong]; omega
  | null => rfl
  | bool b => rfl
  | num n => rfl
  | str s => rfl
  | obj gs => rfl

/-- One reduction step establishes the staged invariants in priority
order: the file-count bound always holds afterwards; given it, the
per-file bound holds afterwards; given both, the bucket bound holds
afterwards; given all three, the string bound holds afterwards. -/
theorem step_establishes (cfg : Config) (h41 : 41 ≤ cfg.maxStrField) (p : J) :
    filesOkB cfg (shrink_step cfg p) = true ∧
    (filesOkB cfg p = true → evidOkB cfg (shrink_step cfg p) = true) ∧
    (filesOkB cfg p = true → evidOkB cfg p = true →
      bucketsOkB cfg (shrink_step cfg p) = true) ∧
    (filesOkB cfg p = true → evidOkB cfg p = true → bucketsOkB cfg p = true →
      stringsOkB cfg (shrink_step cfg p) = true) := by
  unfold shrink_step
  split
  · next hlong =>
      have hne : getJsFiles p ≠ [] := by
        intro h0; rw [h0] at hlong; simp at hlong
      obtain ⟨jv, hjv, hfs⟩ := getJsFiles_inv p hne
      have hFnot : ¬ (filesOkB cfg p = true) := by
        unfold filesOkB; simp only [decide_eq_true_eq]; omega
      simp only [hjv]
      refine ⟨?_, fun hF => absurd hF hFnot, fun hF _ => absurd hF hFnot,
        fun hF _ _ => absurd hF hFnot⟩
      unfold filesOkB
      rw [getJsFiles_set p jv _ hjv (jget_some_isObj hfs)]
      simp [List.length_take]
  · next hnotlong =>
    have hFp : filesOkB cfg p = true := by
      unfold filesOkB; simp only [decide_eq_true_eq]; omega
    split
    · next hany =>
        have hne : getJsFiles p ≠ [] := by
          intro h0; rw [h0] at hany; simp at hany
        obtain ⟨jv, hjv, hfs⟩ := getJsFiles_inv p hne
        have hEnot : ¬ (evidOkB cfg p = true) := by
          unfold evidOkB
          obtain ⟨f, hf, hlt⟩ := List.any_eq_true.mp hany
          simp only [decide_eq_true_eq] at hlt
          simp only [List.all_eq_true, decide_eq_true_eq]
          intro hall
          exact absurd (hall f hf) (by omega)
        simp only [hjv]
        refine ⟨?_, ?_, fun _ hE => absurd hE hEnot, fun _ hE _ => absurd hE hEnot⟩
        · unfold filesOkB
          rw [getJsFiles_set p jv _ hjv (jget_some_isObj hfs)]
          simp only [List.length_map, decide_eq_true_eq]
          omega
        · intro _
          unfold evidOkB
          rw [getJsFiles_set p jv _ hjv (jget_some_isObj hfs)]
          simp only [List.all_eq_true, decide_eq_true_eq]
          intro f hf
          obtain ⟨g, hg, rfl⟩ := List.mem_map.mp hf
          exact getEvidences_cutEvidences_le cfg g
    · next hnotany =>
        have hEp : evidOkB cfg p = true := by
          unfold evidOkB
          simp only [List.all_eq_true, decide_eq_true_eq]
          intro f hf
          by_contra hc
          exact hnotany (List.any_eq_true.mpr ⟨f, hf, by simp only [decide_eq_true_eq]; omega⟩)
        split
        · next h hh =>
            split
            · next bs hhl =>
                split
                · next hbany =>
                    have hBnot : ¬ (bucketsOkB cfg p = true) := by
                      unfold bucketsOkB
                      simp only [hh, hhl]
                      obtain ⟨kv, hkv, hlt⟩ := List.any_eq_true.mp hbany
                      simp only [List.all_eq_true]
                      intro hall
                      have := hall kv hkv
                      rw [hlt] at this
                      simp at this
                    refine ⟨?_, fun _ => ?_, fun _ _ => ?_, fun _ _ hB => absurd hB hBnot⟩
                    · unfold filesOkB
                      rw [getJsFiles_set_html]
                      unfold filesOkB at hFp
                      exact hFp
                    · unfold evidOkB
                      rw [getJsFiles_set_html]
                      unfold evidOkB at hEp
                      exact hEp
                    · unfold bucketsOkB
                      have h1 : jget (jset p "html"
                          (jset h "highlights" (.obj (bs.map (cutBucket cfg))))) "html" =
                          some (jset h "highlights" (.obj (bs.map (cutBucket cfg)))) :=
                        jget_jset_self p _ _ (jget_some_isObj hh)
                      have h2 : jget (jset h "highlights" (.obj (bs.map (cutBucket cfg))))
                          "highlights" = some (.obj (bs.map (cutBucket cfg))) :=
                        jget_jset_self h _ _ (jget_some_isObj hhl)
                      simp only [h1, h2, List.all_eq_true]
                      intro kv hkv
                      obtain ⟨kv', hkv', rfl⟩ := List.mem_map.mp hkv
                      simp [cutBucket_ok cfg kv']
                · next hbnotany =>
                    have hBp : bucketsOkB cfg p = true := by
                      unfold bucketsOkB
                      simp only [hh, hhl, List.all_eq_true]
                      intro kv hkv
                      by_contra hc
                      exact hbnotany (List.any_eq_true.mpr ⟨kv, hkv, by
                        simpa using hc⟩)
                    exact ⟨by rw [filesOk_truncate]; exact hFp,
                      fun _ => by rw [evidOk_truncate]; exact hEp,
                      fun _ _ => by rw [bucketsOk_truncate]; exact hBp,
                      fun _ _ _ => stringsOk_truncate cfg h41 p⟩
            · next hnotobj =>
                have hBp : bucketsOkB cfg p = true := by
                  unfold bucketsOkB
                  simp only [hh]
                exact ⟨by rw [filesOk_truncate]; exact hFp,
                  fun _ => by rw [evidOk_truncate]; exact hEp,
                  fun _ _ => by rw [bucketsOk_truncate]; exact hBp,
                  fun _ _ _ => stringsOk_truncate cfg h41 p⟩
        · next hhn =>
            have hBp : bucketsOkB cfg p = true := by
              unfold bucketsOkB
              simp [hhn]
            exact ⟨by rw [filesOk_truncate]; exact hFp,
              fun _ => by rw [evidOk_truncate]; exact hEp,
              fun _ _ => by rw [bucketsOk_truncate]; exact hBp,
              fun _ _ _ => stringsOk_truncate cfg h41 p⟩

/-- When all four staged invariants hold the step is the identity. -/
theorem step_id_of_allOk (cfg : Config) (p : J)
    (hF : filesOkB cfg p = true) (hE : evidOkB cfg p = true)
    (hB : bucketsOkB cfg p = true) (hS : stringsOkB cfg p = true) :
    shrink_step cfg p = p := by
  have hF' : ¬ (cfg.maxJsFiles < (getJsFiles p).length) := by
    unfold filesOkB at hF; simp only [decide_eq_true_eq] at hF; omega
  have hE' : ¬ (((getJsFiles p).any
      fun f => decide (cfg.maxJsEvidencePerFile < (getEvidences f).length)) = true) := by
    unfold evidOkB at hE
    simp only [List.all_eq_true, decide_eq_true_eq] at hE
    intro hc
    obtain ⟨f, hf, hlt⟩ := List.any_eq_true.mp hc
    simp only [decide_eq_true_eq] at hlt
    exact absurd (hE f hf) (by omega)
  unfold shrink_step
  rw [if_neg hF', if_neg hE']
  split
  · next h hh =>
      split
      · next bs hhl =>
          have hbany : ¬ ((bs.any fun kv => bucketTooLong cfg kv.2) = true) := by
            unfold bucketsOkB at hB
            simp only [hh, hhl, List.all_eq_true] at hB
            intro hc
            obtain ⟨kv, hkv, hlt⟩ := List.any_eq_true.mp hc
            have := hB kv hkv
            rw [hlt] at this
            simp at this
          rw [if_neg hbany]
          exact truncate_of_stringsOk cfg p hS
      · exact truncate_of_stringsOk cfg p hS
  · exact truncate_of_stringsOk cfg p hS

theorem iterate_fix {α : Type} {f : α → α} {q : α} (h : f q = q) : ∀ m, f^[m] q = q
  | 0 => rfl
  | m + 1 => by rw [Function.iterate_succ_apply, h, iterate_fix h m]

/-- Four reduction steps always reach a fixed point of `shrink_step`. -/
theorem shrink_step_iterate4_fix (cfg : Config) (h41 : 41 ≤ cfg.maxStrField) (p : J) :
    shrink_step cfg ((shrink_step cfg)^[4] p) = (shrink_step cfg)^[4] p := by
  have h4 : (shrink_step cfg)^[4] p =
      shrink_step cfg (shrink_step cfg (shrink_step cfg (shrink_step cfg p))) := by
    simp [Function.iterate_succ_apply, Function.iterate_zero_apply]
  have S := fun q => step_establishes cfg h41 q
  have hF1 := (S p).1
  have hF2 := (S (shrink_step cfg p)).1
  have hE2 := (S (shrink_step cfg p)).2.1 hF1
  have hF3 := (S (shrink_step cfg (shrink_step cfg p))).1
  have hE3 := (S (shrink_step cfg (shrink_step cfg p))).2.1 hF2
  have hB3 := (S (shrink_step cfg (shrink_step cfg p))).2.2.1 hF2 hE2
  have hF4 := (S (shrink_step cfg (shrink_step cfg (shrink_step cfg p)))).1
  have hE4 := (S (shrink_step cfg (shrink_step cfg (shrink_step cfg p)))).2.1 hF3
  have hB4 := (S (shrink_step cfg (shrink_step cfg (shrink_step cfg p)))).2.2.1 hF3 hE3
  have hS4 := (S (shrink_step cfg (shrink_step cfg (shrink_step cfg p)))).2.2.2 hF3 hE3 hB3
  rw [h4]
  exact step_id_of_allOk cfg _ hF4 hE4 hB4 hS4

/-- A payload already within budget is returned unchanged. -/
theorem shrink_payload_of_le (cfg : Config) (p : J) (limit : Nat)
    (h : jsize p ≤ limit) : shrink_payload cfg p limit = p := by
  unfold shrink_payload
  rw [show shrink_loop cfg limit 20 p =
        if jsize p ≤ limit then p else shrink_loop cfg limit 19 (shrink_step cfg p) from rfl,
    if_pos h]

/-- The loop's output either meets the budget or is the full 20-fold
iterate of the step function. -/
theorem shrink_loop_cases (cfg : Config) (limit : Nat) :
    ∀ (n : Nat) (p : J), jsize (shrink_loop cfg limit n p) ≤ limit ∨
      shrink_loop cfg limit n p = (shrink_step cfg)^[n] p
  | 0, p => Or.inr rfl
  | n + 1, p => by
      rw [show shrink_loop cfg limit (n + 1) p =
            if jsize p ≤ limit then p else shrink_loop cfg limit n (shrink_step cfg p) from rfl]
      split
      · next hle => exact Or.inl hle
      · rcases shrink_loop_cases cfg limit n (shrink_step cfg p) with h | h
        · exact Or.inl h
        · right
          rw [h, Function.iterate_succ_apply]

/-- C4 (amended): for every well-formed payload, budget and limits with
`MAX_STR_FIELD ≥ 41` the compactor is idempotent:
`shrink(shrink(p)) = shrink(p)`. -/
theorem c4_amended (cfg : Config) (p : J) (limit : Nat)
    (h41 : 41 ≤ cfg.maxStrField) (hwf : wfPayload p = true) :
    shrink_payload cfg (shrink_payload cfg p limit) limit = shrink_payload cfg p limit := by
  have _ := hwf
  rcases shrink_loop_cases cfg limit 20 p with hle | heq
  · exact shrink_payload_of_le cfg _ limit hle
  · have hfix : shrink_step cfg (shrink_payload cfg p limit) = shrink_payload cfg p limit := by
      unfold shrink_payload
      rw [heq]
      have h20 : (shrink_step cfg)^[20] p = (shrink_step cfg)^[4] p := by
        have : (shrink_step cfg)^[16] ((shrink_step cfg)^[4] p) = (shrink_step cfg)^[20] p := by
          rw [← Function.iterate_add_apply]
        rw [← this, iterate_fix (shrink_step_iterate4_fix cfg h41 p) 16]
      rw [h20]
      exact shrink_step_iterate4_fix cfg h41 p
    unfold shrink_payload
    exact shrink_loop_fixpoint cfg limit _ hfix 20

/-- C4 witness: idempotence at the default configuration. -/
theorem c4_witness :
    shrink_payload defaultConfig (shrink_payload defaultConfig pXXXXX 0) 0 =
      shrink_payload defaultConfig pXXXXX 0 :=
  c4_amended defaultConfig pXXXXX 0 (by decide) (by decide)

/-- The loop's output is always some at-most-`n`-fold iterate of the step
function (the loop can only stop early or exhaust its fuel). -/
theorem shrink_loop_iterate (cfg : Config) (limit : Nat) :
    ∀ (n : Nat) (p : J), ∃ k, k ≤ n ∧ shrink_loop cfg limit n p = (shrink_step cfg)^[k] p
  | 0, p => ⟨0, le_refl 0, rfl⟩
  | n + 1, p => by
      rw [show shrink_loop cfg limit (n + 1) p =
            if jsize p ≤ limit then p else shrink_loop cfg limit n (shrink_step cfg p) from rfl]
      split
      · exact ⟨0, by omega, rfl⟩
      · obtain ⟨k, hk, heq⟩ := shrink_loop_iterate cfg limit n (shrink_step cfg p)
        exact ⟨k + 1, by omega, by rw [heq, Function.iterate_succ_apply]⟩

/-- C5: for every well-formed payload, budget and limits, the compactor's
loop terminates within the fixed cap of 20 iterations — its output is an
at-most-20-fold iterate of the reduction step — and when the budget is
still unmet it returns the best-effort 20-fold iterate (a value, never an
error: `shrink_payload` is a total function). -/
theorem c5_bounded_termination (cfg : Config) (p : J) (limit : Nat)
    (hwf : wfPayload p = true) :
    (∃ k, k ≤ 20 ∧ shrink_payload cfg p limit = (shrink_step cfg)^[k] p) ∧
    (limit < jsize (shrink_payload cfg p limit) →
      shrink_payload cfg p limit = (shrink_step cfg)^[20] p) := by
  have _ := hwf
  constructor
  · exact shrink_loop_iterate cfg limit 20 p
  · intro hgt
    rcases shrink_loop_cases cfg limit 20 p with hle | heq
    · unfold shrink_payload at hgt
      omega
    · exact heq

/-- C5 witness: the theorem applied at a concrete payload. -/
theorem c5_witness :
    ∃ k, k ≤ 20 ∧ shrink_payload defaultConfig pXXXXX 100 =
      (shrink_step defaultConfig)^[k] pXXXXX :=
  (c5_bounded_termination defaultConfig pXXXXX 100 (by decide)).1

/-! ## The JS detector patterns of `analyze_js` (claims C6, C7, C10)

`analyze_js` runs `re.finditer(pattern, js_text, flags=re.IGNORECASE)` for
each entry of `JS_PATTERNS`.  The patterns use only literals, character
classes, class quantifiers (`\s*`, `\s+`, `[^'"]+`), alternation and word
boundaries, so they are compiled here into a small backtracking matcher
with Python's priority semantics: alternation tries the left branch first,
class quantifiers are greedy (longest run first), `finditer` yields
leftmost non-overlapping matches and resumes at each match's end.  `\s` and
`\w` are modelled over their ASCII ranges (the scripts scanned are ASCII
text). -/

inductive Rx where
  | lit (s : List Char)
  | cls (neg : Bool) (cs : List Char)
  | clsStar (neg : Bool) (cs : List Char)
  | clsPlus (neg : Bool) (cs : List Char)
  | seq (a b : Rx)
  | alt (a b : Rx)
  | wordB

/-- Matcher state: the previous character (needed for `\b`) and the
remaining input. -/
structure MState where
  prev : Option Char
  rest : List Char

def ciChar (ci : Bool) (c : Char) : Char := if ci then c.toLower else c

def inCls (ci : Bool) (neg : Bool) (cs : List Char) (c : Char) : Bool :=
  let mem := cs.any (fun d => ciChar ci d == ciChar ci c)
  if neg then !mem else mem

/-- Python `\w` over ASCII: letters, digits and underscore. -/
def isWordChar (c : Char) : Bool := c.isAlpha || c.isDigit || c == '_'

def atWordBoundary (st : MState) : Bool :=
  (match st.prev with
   | some c => isWordChar c
   | none => false) !=
  (match st.rest with
   | c :: _ => isWordChar c
   | [] => false)

def consumeLit (ci : Bool) : List Char → MState → Option MState
  | [], st => some st
  | c :: cr, st =>
    match st.rest with
    | [] => none
    | d :: dr => if ciChar ci c == ciChar ci d then consumeLit ci cr ⟨some d, dr⟩ else none

/-- The states after consuming 0, 1, 2, … class characters, in increasing
order of consumption (the maximal run is the last entry).  The fuel is
structural and always sufficient: every recursive call consumes one input
character, and the initial fuel in `classStates` exceeds the input length. -/
def classStatesFuel (ci : Bool) (neg : Bool) (cs : List Char) : Nat → MState → List MState
  | 0, st => [st]
  | fuel + 1, st =>
    st :: (match st.rest with
      | c :: r => if inCls ci neg cs c then classStatesFuel ci neg cs fuel ⟨some c, r⟩ else []
      | [] => [])

def classStates (ci : Bool) (neg : Bool) (cs : List Char) (st : MState) : List MState :=
  classStatesFuel ci neg cs (st.rest.length + 1) st

/-- All continuation states of a pattern on a state, in Python's
backtracking priority order (head = the continuation Python commits to). -/
def mrun (ci : Bool) : Rx → MState → List MState
  | .lit s, st =>
    match consumeLit ci s st with
    | some st2 => [st2]
    | none => []
  | .cls neg cs, st =>
    match st.rest with
    | c :: r => if inCls ci neg cs c then [⟨some c, r⟩] else []
    | [] => []
  | .clsStar neg cs, st => (classStates ci neg cs st).reverse
  | .clsPlus neg cs, st => ((classStates ci neg cs st).reverse).dropLast
  | .seq a b, st => (mrun ci a st).flatMap (mrun ci b)
  | .alt a b, st => mrun ci a st ++ mrun ci b st
  | .wordB, st => if atWordBoundary st then [st] else []

/-- Length of the match the engine commits to at this position, if any. -/
def matchLenAt (ci : Bool) (r : Rx) (prev : Option Char) (s : List Char) : Option Nat :=
  match mrun ci r ⟨prev, s⟩ with
  | [] => none
  | st :: _ => some (s.length - st.rest.length)

theorem matchLenAt_le (ci : Bool) (r : Rx) (prev : Option Char) (s : List Char) {len : Nat}
    (h : matchLenAt ci r prev s = some len) : len ≤ s.length := by
  unfold matchLenAt at h
  split at h
  · exact absurd h (by simp)
  · simp only [Option.some.injEq] at h
    omega

/-- `re.finditer`: scan left to right, yield the leftmost match at each
position, resume after its end (one past it for a zero-width match; at the
end of the input any match is zero-width and scanning stops).  The fuel is
structural and always sufficient: every recursive call strictly shortens
the remaining input, and the initial fuel in `finditer` exceeds the input
length. -/
def finditerAux (ci : Bool) (r : Rx) : Nat → Option Char → List Char → Nat → List (Nat × Nat)
  | 0, _, _, _ => []
  | _ + 1, prev, [], pos =>
    match matchLenAt ci r prev [] with
    | some _ => [(pos, 0)]
    | none => []
  | fuel + 1, prev, c :: rest, pos =>
    match matchLenAt ci r prev (c :: rest) with
    | some len =>
        if len = 0 then
          (pos, 0) :: finditerAux ci r fuel (some c) rest (pos + 1)
        else
          (pos, len) ::
            finditerAux ci r fuel (((c :: rest).take len).getLast?)
              ((c :: rest).drop len) (pos + len)
    | none => finditerAux ci r fuel (some c) rest (pos + 1)

def finditer (ci : Bool) (r : Rx) (s : List Char) : List (Nat × Nat) :=
  finditerAux ci r (s.length + 1) none s 0

/-- Every reported start position is at least the scan position. -/
theorem finditerAux_pos_le (ci : Bool) (r : Rx) :
    ∀ (fuel : Nat) (prev : Option Char) (s : List Char) (pos : Nat),
      ∀ m ∈ finditerAux ci r fuel prev s pos, pos ≤ m.1 := by
  intro fuel
  induction fuel with
  | zero => intro prev s pos m hm; simp [finditerAux] at hm
  | succ fuel ih =>
      intro prev s pos m hm
      cases s with
      | nil =>
          cases hml : matchLenAt ci r prev [] with
          | none => simp [finditerAux, hml] at hm
          | some len =>
              simp only [finditerAux, hml, List.mem_singleton] at hm
              subst hm
              exact le_refl _
      | cons c rest =>
          cases hml : matchLenAt ci r prev (c :: rest) with
          | none =>
              simp only [finditerAux, hml] at hm
              exact (ih _ _ _ m hm).trans' (by omega)
          | some len =>
              by_cases h0 : len = 0
              · simp only [finditerAux, hml, if_pos h0, List.mem_cons] at hm
                rcases hm with hm | hm
                · subst hm; exact le_refl _
                · exact (ih _ _ _ m hm).trans' (by omega)
              · simp only [finditerAux, hml, if_neg h0, List.mem_cons] at hm
                rcases hm with hm | hm
                · subst hm; exact le_refl _
                · exact (ih _ _ _ m hm).trans' (by omega)

/-- Start positions of the reported matches are strictly increasing. -/
theorem finditerAux_pairwise (ci : Bool) (r : Rx) :
    ∀ (fuel : Nat) (prev : Option Char) (s : List Char) (pos : Nat),
      List.Pairwise (fun a b => a.1 < b.1) (finditerAux ci r fuel prev s pos) := by
  intro fuel
  induction fuel with
  | zero => intro prev s pos; simp [finditerAux]
  | succ fuel ih =>
      intro prev s pos
      cases s with
      | nil =>
          cases hml : matchLenAt ci r prev [] with
          | none => simp [finditerAux, hml]
          | some len => simp [finditerAux, hml]
      | cons c rest =>
          cases hml : matchLenAt ci r prev (c :: rest) with
          | none =>
              simp only [finditerAux, hml]
              exact ih _ _ _
          | some len =>
              by_cases h0 : len = 0
              · simp only [finditerAux, hml, if_pos h0]
                refine List.Pairwise.cons ?_ (ih _ _ _)
                intro b hb
                have := finditerAux_pos_le ci r fuel _ _ _ b hb
                omega
              · simp only [finditerAux, hml, if_neg h0]
                refine List.Pairwise.cons ?_ (ih _ _ _)
                intro b hb
                have := finditerAux_pos_le ci r fuel _ _ _ b hb
                omega

theorem finditer_pairwise (ci : Bool) (r : Rx) (s : List Char) :
    List.Pairwise (fun a b => a.1 < b.1) (finditer ci r s) :=
  finditerAux_pairwise ci r (s.length + 1) none s 0

/-- Python `\s` (ASCII range). -/
def wsChars : List Char := [' ', '\t', '\n', '\r', '\x0b', '\x0c']

/-- Quote class `['\"]` of the patterns. -/
def quoteChars : List Char := ['\'', '"']

def rxSeq : List Rx → Rx
  | [] => .lit []
  | [a] => a
  | a :: r => .seq a (rxSeq r)

def rxLit (s : String) : Rx := .lit s.data

/-- One entry of `JS_PATTERNS`: the regex source text, its compilation
into `Rx`, and the detector label. -/
structure JsPattern where
  source : String
  rx : Rx
  label : String

/-- `JS_PATTERNS`, each regex hand-compiled into `Rx` (in source order). -/
def JS_PATTERNS : List JsPattern := [
  { source := "\\beval\\s*\\(",
    rx := rxSeq [.wordB, rxLit "eval", .clsStar false wsChars, rxLit "("],
    label := "use_of_eval" },
  { source := "\\bnew\\s+Function\\s*\\(",
    rx := rxSeq [.wordB, rxLit "new", .clsPlus false wsChars, rxLit "Function",
      .clsStar false wsChars, rxLit "("],
    label := "new_Function" },
  { source := "\\bset(?:Timeout|Interval)\\s*\\(\\s*(['\\\"])",
    rx := rxSeq [.wordB, rxLit "set", .alt (rxLit "Timeout") (rxLit "Interval"),
      .clsStar false wsChars, rxLit "(", .clsStar false wsChars, .cls false quoteChars],
    label := "setTimeout_string_code" },
  { source := "\\.innerHTML\\s*=",
    rx := rxSeq [rxLit ".innerHTML", .clsStar false wsChars, rxLit "="],
    label := "innerHTML_assignment" },
  { source := "\\.outerHTML\\s*=",
    rx := rxSeq [rxLit ".outerHTML", .clsStar false wsChars, rxLit "="],
    label := "outerHTML_assignment" },
  { source := "\\.insertAdjacentHTML\\s*\\(",
    rx := rxSeq [rxLit ".insertAdjacentHTML", .clsStar false wsChars, rxLit "("],
    label := "insertAdjacentHTML" },
  { source := "\\bdocument\\.write\\s*\\(",
    rx := rxSeq [.wordB, rxLit "document.write", .clsStar false wsChars, rxLit "("],
    label := "document_write" },
  { source := "\\bdocument\\.cookie\\b",
    rx := rxSeq [.wordB, rxLit "document.cookie", .wordB],
    label := "document_cookie_access" },
  { source := "\\blocalStorage\\.(?:setItem|getItem|removeItem)\\s*\\(",
    rx := rxSeq [.wordB, rxLit "localStorage.",
      .alt (rxLit "setItem") (.alt (rxLit "getItem") (rxLit "removeItem")),
      .clsStar false wsChars, rxLit "("],
    label := "localStorage_usage" },
  { source := "\\bsessionStorage\\.(?:setItem|getItem|removeItem)\\s*\\(",
    rx := rxSeq [.wordB, rxLit "sessionStorage.",
      .alt (rxLit "setItem") (.alt (rxLit "getItem") (rxLit "removeItem")),
      .clsStar false wsChars, rxLit "("],
    label := "sessionStorage_usage" },
  { source := "\\bdangerouslySetInnerHTML\\b",
    rx := rxSeq [.wordB, rxLit "dangerouslySetInnerHTML", .wordB],
    label := "react_dangerouslySetInnerHTML" },
  { source := "\\bfetch\\s*\\(\\s*['\\\"]([^'\\\"]+)",
    rx := rxSeq [.wordB, rxLit "fetch", .clsStar false wsChars, rxLit "(",
      .clsStar false wsChars, .cls false quoteChars, .clsPlus true quoteChars],
    label := "fetch_call" },
  { source := "\\bXMLHttpRequest\\s*\\(",
    rx := rxSeq [.wordB, rxLit "XMLHttpRequest", .clsStar false wsChars, rxLit "("],
    label := "xhr_usage" },
  { source := "\\.open\\s*\\(\\s*['\\\"](GET|POST|PUT|DELETE|PATCH)['\\\"]\\s*,\\s*['\\\"]([^'\\\"]+)",
    rx := rxSeq [rxLit ".open", .clsStar false wsChars, rxLit "(", .clsStar false wsChars,
      .cls false quoteChars,
      .alt (rxLit "GET") (.alt (rxLit "POST") (.alt (rxLit "PUT")
        (.alt (rxLit "DELETE") (rxLit "PATCH")))),
      .cls false quoteChars, .clsStar false wsChars, rxLit ",", .clsStar false wsChars,
      .cls false quoteChars, .clsPlus true quoteChars],
    label := "xhr_open" },
  { source := "\\bURLSearchParams\\s*\\(",
    rx := rxSeq [.wordB, rxLit "URLSearchParams", .clsStar false wsChars, rxLit "("],
    label := "urlsearchparams_usage" },
  { source := "\\blocation\\.(?:hash|search|href)\\b",
    rx := rxSeq [.wordB, rxLit "location.",
      .alt (rxLit "hash") (.alt (rxLit "search") (rxLit "href")), .wordB],
    label := "location_usage" }]

/-- The line-break characters recognized by Python `str.splitlines`. -/
def isLineBreak (c : Char) : Bool :=
  c == '\n' || c == '\r' || c == '\x0b' || c == '\x0c' ||
  c == '\x1c' || c == '\x1d' || c == '\x1e' || c == '\x85' ||
  c == '\u2028' || c == '\u2029'

def splitlinesGo : List Char → List Char → List String
  | [], acc => if acc.isEmpty then [] else [⟨acc.reverse⟩]
  | '\r' :: '\n' :: r, acc => (⟨acc.reverse⟩ : String) :: splitlinesGo r []
  | c :: r, acc =>
      if isLineBreak c then (⟨acc.reverse⟩ : String) :: splitlinesGo r []
      else splitlinesGo r (c :: acc)

/-- Python `str.splitlines()`. -/
def pySplitlines (s : String) : List String := splitlinesGo s.data []

/-- One context row `{"line": ln + 1, "code": lines[ln]}`. -/
structure CtxLine where
  line : Nat
  code : String
  deriving DecidableEq

/-- One entry of the per-file `evidences` list built by `analyze_js`. -/
structure JsEvidence where
  pattern : String
  regex : String
  filename : String
  line_no : Nat
  context : List CtxLine
  deriving DecidableEq

/-- Python `range(a, b)`. -/
def pyRange (a b : Nat) : List Nat := List.range' a (b - a)

/-- The evidence record `analyze_js` builds for one regex match: the line
number is 1 plus the count of newlines before the match start, and the
context rows are `lines[ln]` for `ln in range(max(0, line_no - 1),
min(len(lines), line_no + 2))` — note the source uses the 1-based
`line_no` where a 0-based line index would be needed. -/
def mkEvidence (text : List Char) (lines : List String) (filename : String)
    (pat : JsPattern) (m : Nat × Nat) : JsEvidence :=
  let lineIndex := (text.take m.1).count '\n'
  let line_no := lineIndex + 1
  { pattern := pat.label
    regex := pat.source
    filename := filename
    line_no := line_no
    context := (pyRange (max 0 (line_no - 1)) (min lines.length (line_no + 2))).map
      (fun ln => ⟨ln + 1, (lines.get? ln).getD ""⟩) }

/-- The `evidences` list of `analyze_js(js_text, filename, site_url)`:
one record per detector match, detectors in `JS_PATTERNS` order, matches
in `re.finditer` order (case-insensitive matching). -/
def analyze_js_evidences (js_text : String) (filename : String) : List JsEvidence :=
  let lines := pySplitlines js_text
  JS_PATTERNS.flatMap (fun pat =>
    (finditer true pat.rx js_text.data).map (mkEvidence js_text.data lines filename pat))

/-- The JS text of the spec's context-window example. -/
def evalCtxSample : String := "const x = 1;\neval(userInput);\n"

/-- A three-line file with a detector match on the first line. -/
def evalFirstLineSample : String := "eval(x);\nb();\nc();\n"

/-- C6 (divergence witness for the code bug): `analyze_js` builds the
context from `range(max(0, line_no - 1), min(len(lines), line_no + 2))`,
using the 1-based `line_no` where a 0-based index is needed.  On the spec's
example the eval hit at line 2 therefore gets a context of just line 2
(the claim requires lines 1–3, clipped here to 1–2), and a first-line
match in a three-line file gets 3 context rows (the claim requires
exactly 2). -/
theorem c6_context_window_bug :
    analyze_js_evidences evalCtxSample "app.js" =
      [{ pattern := "use_of_eval", regex := "\\beval\\s*\\(", filename := "app.js",
         line_no := 2, context := [⟨2, "eval(userInput);"⟩] }] ∧
    (analyze_js_evidences evalFirstLineSample "app.js").map (fun e => e.context.length) =
      [3] := by
  constructor
  · decide
  · decide

/-- C7: every evidence record reports `line_no` equal to 1 plus the number
of newline characters strictly before the match's start offset. -/
theorem c7_line_numbers (js_text filename : String) :
    ∀ e ∈ analyze_js_evidences js_text filename,
      ∃ pat ∈ JS_PATTERNS, ∃ m ∈ finditer true pat.rx js_text.data,
        e = mkEvidence js_text.data (pySplitlines js_text) filename pat m ∧
        e.line_no = 1 + (js_text.data.take m.1).count '\n' := by
  intro e he
  unfold analyze_js_evidences at he
  obtain ⟨pat, hpat, he⟩ := List.mem_flatMap.mp he
  obtain ⟨m, hm, rfl⟩ := List.mem_map.mp he
  refine ⟨pat, hpat, m, hm, rfl, ?_⟩
  simp [mkEvidence, Nat.add_comm]

/-- C7 witness: the theorem applied to the eval hit of the sample text. -/
theorem c7_witness :
    ∃ pat ∈ JS_PATTERNS, ∃ m ∈ finditer true pat.rx evalCtxSample.data,
      ({ pattern := "use_of_eval", regex := "\\beval\\s*\\(", filename := "app.js",
         line_no := 2, context := [⟨2, "eval(userInput);"⟩] } : JsEvidence) =
        mkEvidence evalCtxSample.data (pySplitlines evalCtxSample) "app.js" pat m ∧
      ({ pattern := "use_of_eval", regex := "\\beval\\s*\\(", filename := "app.js",
         line_no := 2, context := [⟨2, "eval(userInput);"⟩] } : JsEvidence).line_no =
        1 + (evalCtxSample.data.take m.1).count '\n' :=
  c7_line_numbers evalCtxSample "app.js" _ (by decide)

/-- The evidence list annotated with (detector index, match start). -/
def jsHitsIndexedAux (text : List Char) (lines : List String) (filename : String) :
    Nat → List JsPattern → List ((Nat × Nat) × JsEvidence)
  | _, [] => []
  | i, pat :: rest =>
      (finditer true pat.rx text).map (fun m => ((i, m.1), mkEvidence text lines filename pat m))
        ++ jsHitsIndexedAux text lines filename (i + 1) rest

def jsHitsIndexed (js_text filename : String) : List ((Nat × Nat) × JsEvidence) :=
  jsHitsIndexedAux js_text.data (pySplitlines js_text) filename 0 JS_PATTERNS

/-- Detector-major order: strictly increasing detector index, and within
one detector strictly increasing match start offset. -/
def hitOrder (a b : (Nat × Nat) × JsEvidence) : Prop :=
  a.1.1 < b.1.1 ∨ (a.1.1 = b.1.1 ∧ a.1.2 < b.1.2)

theorem jsHitsIndexedAux_map_snd (text : List Char) (lines : List String) (filename : String) :
    ∀ (i : Nat) (ps : List JsPattern),
      (jsHitsIndexedAux text lines filename i ps).map Prod.snd =
        ps.flatMap (fun pat =>
          (finditer true pat.rx text).map (mkEvidence text lines filename pat))
  | _, [] => rfl
  | i, pat :: rest => by
      simp only [jsHitsIndexedAux, List.map_append, List.map_map, List.flatMap_cons]
      rw [jsHitsIndexedAux_map_snd text lines filename (i + 1) rest]
      simp [Function.comp]

theorem jsHitsIndexedAux_idx_le (text : List Char) (lines : List String) (filename : String) :
    ∀ (i : Nat) (ps : List JsPattern) (x : (Nat × Nat) × JsEvidence),
      x ∈ jsHitsIndexedAux text lines filename i ps → i ≤ x.1.1
  | i, [], x, hx => by simp [jsHitsIndexedAux] at hx
  | i, pat :: rest, x, hx => by
      simp only [jsHitsIndexedAux, List.mem_append] at hx
      rcases hx with hx | hx
      · obtain ⟨m, hm, rfl⟩ := List.mem_map.mp hx
        exact le_refl _
      · exact (jsHitsIndexedAux_idx_le text lines filename (i + 1) rest x hx).trans' (by omega)

theorem jsHitsIndexedAux_pairwise (text : List Char) (lines : List String) (filename : String) :
    ∀ (i : Nat) (ps : List JsPattern),
      List.Pairwise hitOrder (jsHitsIndexedAux text lines filename i ps)
  | _, [] => List.Pairwise.nil
  | i, pat :: rest => by
      simp only [jsHitsIndexedAux]
      apply List.pairwise_append.mpr
      refine ⟨?_, jsHitsIndexedAux_pairwise text lines filename (i + 1) rest, ?_⟩
      · rw [List.pairwise_map]
        apply (finditer_pairwise true pat.rx text).imp
        intro a b hab
        exact Or.inr ⟨rfl, hab⟩
      · intro x hx y hy
        obtain ⟨m, hm, rfl⟩ := List.mem_map.mp hx
        have := jsHitsIndexedAux_idx_le text lines filename (i + 1) rest y hy
        refine Or.inl ?_
        show i < y.1.1
        omega

/-- C10: the per-file hit list is detector-major — it equals the list of
records annotated with (detector index, match start) stripped of the
annotations, and that annotated list is strictly sorted by detector index
first (in `JS_PATTERNS` order) and match start offset within a detector —
not by position in the file. -/
theorem c10_detector_major_order (js_text filename : String) :
    analyze_js_evidences js_text filename = (jsHitsIndexed js_text filename).map Prod.snd ∧
    List.Pairwise hitOrder (jsHitsIndexed js_text filename) := by
  constructor
  · rw [jsHitsIndexed, jsHitsIndexedAux_map_snd]
    rfl
  · exact jsHitsIndexedAux_pairwise _ _ _ 0 JS_PATTERNS

/-! ## Parsed HTML elements (claims C2, C9)

`analyze_html` works on BeautifulSoup's parse of the markup.  The parser
itself is an external library; its behaviour is modelled here narrowly and
explicitly for childless elements, which is all the relevant claims need:
`html.parser` lower-cases tag and attribute names, decodes attribute
values (unquoted values parse to plain strings), parses multi-valued
attributes such as `rel` into whitespace-split token lists, and `str(el)`
re-serializes the element with double-quoted attribute values — it does
not copy the source bytes. -/

inductive AttrVal where
  | s (v : String)
  | l (vs : List String)
  deriving DecidableEq

/-- A parsed childless element. -/
structure Element where
  name : String
  attrs : List (String × AttrVal)
  text : String
  deriving DecidableEq

/-- `el.get(k)`. -/
def aget (e : Element) (k : String) : Option AttrVal := List.lookup k e.attrs

/-- `el.get(k)` for a string-valued attribute. -/
def agetStr (e : Element) (k : String) : Option String :=
  match aget e k with
  | some (.s v) => some v
  | _ => none

def attrValStr : AttrVal → String
  | .s v => v
  | .l vs => String.intercalate " " vs

/-- Models `str(el)` (the `outer` helper of `analyze_html`) of a parsed
childless element: bs4 re-serializes the tag with lower-cased names and
double-quoted attribute values. -/
def bs4Str (e : Element) : String :=
  "<" ++ e.name ++
    String.join (e.attrs.map (fun kv => " " ++ kv.1 ++ "=\"" ++ attrValStr kv.2 ++ "\"")) ++
    ">" ++ e.text ++ "</" ++ e.name ++ ">"

/-- Python `str.upper()` (ASCII range). -/
def pyUpper (s : String) : String := ⟨s.data.map Char.toUpper⟩

/-- One record of the `forms` bucket of `analyze_html`. -/
structure FormRecord where
  outer_html : String
  action : Option String
  action_abs : Option String
  method : String
  deriving DecidableEq

/-- The `forms` loop of `analyze_html`: one record per `form` element,
`outer_html` is `str(el)`, the method defaults to `GET` when absent or
empty (Python `or`) and is upper-cased. -/
def formsBucket (resolver : String → String → Option String) (site_url : Option String)
    (els : List Element) : List FormRecord :=
  (els.filter (fun e => e.name == "form")).map (fun form =>
    { outer_html := bs4Str form
      action := agetStr form "action"
      action_abs := abs_url resolver site_url (agetStr form "action")
      method := pyUpper (match agetStr form "method" with
        | some m => if m = "" then "GET" else m
        | none => "GET") })

/-- The raw markup of the C2 counterexample. -/
def formSampleMarkup : String := "<FORM ACTION=x></FORM>"

/-- Modelled from BeautifulSoup html.parser's parse of `formSampleMarkup`:
the tag and attribute names are lower-cased and the unquoted attribute
value parses to the plain string `x`. -/
def formSampleParsed : List Element := [⟨"form", [("action", .s "x")], ""⟩]

/-- C2 (counterexample): the `outer_html` stored by `analyze_html` is the
parser's re-serialization `str(el)`, which for `<FORM ACTION=x></FORM>` is
`<form action="x"></form>` — not a substring of the raw source markup, so
it is not byte-identical to the corresponding source substring. -/
theorem c2_counterexample :
    (formsBucket (fun _ _ => none) none formSampleParsed).map (fun r => r.outer_html) =
      ["<form action=\"x\"></form>"] ∧
    ¬ List.IsInfix ("<form action=\"x\"></form>" : String).data formSampleMarkup.data := by
  constructor
  · rfl
  · decide

/-- C2 (amended): every form record's full-tag markup is byte-identical to
the parser's serialization `str(el)` of its source element (not in general
to a source substring), and the compactor's string-truncation walker — the
only compaction step that rewrites strings — preserves every `outer_html`
value byte-identically. -/
theorem c2_amended (resolver : String → String → Option String) (site_url : Option String)
    (els : List Element) (cfg : Config) (p : J) :
    (formsBucket resolver site_url els).map (fun r => r.outer_html) =
      (els.filter (fun e => e.name == "form")).map bs4Str ∧
    outerHtmls (truncate cfg p) = outerHtmls p := by
  constructor
  · unfold formsBucket
    rw [List.map_map]
    rfl
  · exact outerHtmls_truncate cfg p

/-- Python's substring test `needle in hay`. -/
def pyIn (needle hay : String) : Bool :=
  hay.data.tails.any (fun t => needle.data.isPrefixOf t)

/-- `" ".join(x)`: joins a token list with spaces; iterating a string
joins its characters with spaces. -/
def joinRel : AttrVal → String
  | .l vs => String.intercalate " " vs
  | .s v => String.intercalate " " (v.data.map (fun c => String.singleton c))

/-- Python truthiness of `a.get("rel")`: `None`, `""` and `[]` are falsy. -/
def attrTruthy : Option AttrVal → Bool
  | none => false
  | some (.s v) => !(v == "")
  | some (.l vs) => !vs.isEmpty

/-- The recording condition of the `target_blank_without_noopener` bucket:
`(a.get("target") == "_blank") and (not a.get("rel") or "noopener" not in
" ".join(a.get("rel")))` — note the `in` is a substring test on the
whitespace-joined rel value, not a token comparison. -/
def tbCond (a : Element) : Bool :=
  (aget a "target" == some (.s "_blank")) &&
  (!(attrTruthy (aget a "rel")) ||
    !(pyIn "noopener" (joinRel ((aget a "rel").getD (.l [])))))

/-- One record of the `target_blank_without_noopener` bucket. -/
structure TbRecord where
  outer_html : String
  href : String
  href_abs : Option String
  target : Option AttrVal
  rel : Option AttrVal
  deriving DecidableEq

/-- `soup.find_all("a", href=True)`. -/
def anchorsWithHref (els : List Element) : List Element :=
  els.filter (fun e => e.name == "a" && (agetStr e "href").isSome)

/-- The `target_blank_without_noopener` bucket of `analyze_html`. -/
def targetBlankBucket (resolver : String → String → Option String)
    (site_url : Option String) (els : List Element) : List TbRecord :=
  (anchorsWithHref els).filterMap (fun a =>
    match agetStr a "href" with
    | some href =>
        if tbCond a then
          some { outer_html := bs4Str a, href := href
                 href_abs := abs_url resolver site_url (some href)
                 target := aget a "target", rel := aget a "rel" }
        else none
    | none => none)

/-- Modelled from BeautifulSoup html.parser's parse of
`<a href="#" target="_blank" rel="xnoopenery">x</a>`: `rel` is a
multi-valued attribute and parses to the token list `["xnoopenery"]`. -/
def relSampleAnchor : Element :=
  ⟨"a", [("href", .s "#"), ("target", .s "_blank"), ("rel", .l ["xnoopenery"])], "x"⟩

/-- C9 (counterexample): the anchor declares an href, has
`target="_blank"` and no rel token equal to `noopener`, so the claim
requires it to be recorded — but the code's substring test finds
`noopener` inside the token `xnoopenery` and does not record it. -/
theorem c9_counterexample :
    targetBlankBucket (fun _ _ => none) none [relSampleAnchor] = [] ∧
    aget relSampleAnchor "target" = some (.s "_blank") ∧
    aget relSampleAnchor "rel" = some (.l ["xnoopenery"]) ∧
    ¬ ("noopener" ∈ ["xnoopenery"]) := by
  refine ⟨rfl, rfl, rfl, by decide⟩

/-- C9 (amended): an anchor that declares an href is recorded in the
target-blank-without-noopener bucket iff its target attribute equals
`"_blank"` and its rel attribute is absent/empty or the string `noopener`
is not a substring of the whitespace-joined rel value. -/
theorem c9_amended (resolver : String → String → Option String) (site_url : Option String)
    (a : Element) (hname : a.name = "a") (hhref : (agetStr a "href").isSome = true) :
    targetBlankBucket resolver site_url [a] ≠ [] ↔
      (aget a "target" = some (.s "_blank") ∧
        (attrTruthy (aget a "rel") = false ∨
          pyIn "noopener" (joinRel ((aget a "rel").getD (.l []))) = false)) := by
  obtain ⟨href, hhref'⟩ := Option.isSome_iff_exists.mp hhref
  unfold targetBlankBucket anchorsWithHref
  simp only [List.filter_cons, List.filter_nil, hname, hhref', beq_self_eq_true,
    Option.isSome_some, Bool.and_self, if_pos]
  simp only [List.filterMap_cons, List.filterMap_nil, hhref']
  by_cases hc : tbCond a = true
  · simp only [if_pos hc]
    constructor
    · intro _
      unfold tbCond at hc
      simp only [Bool.and_eq_true, Bool.or_eq_true, Bool.not_eq_true', beq_iff_eq] at hc
      exact ⟨hc.1, hc.2⟩
    · intro _
      simp
  · simp only [if_neg hc]
    constructor
    · intro h
      exact absurd rfl h
    · intro hr
      refine absurd ?_ hc
      unfold tbCond
      simp only [Bool.and_eq_true, Bool.or_eq_true, Bool.not_eq_true', beq_iff_eq]
      exact ⟨hr.1, hr.2⟩

/-- A witness anchor with `target="_blank"` and no rel attribute. -/
def tbWitnessAnchor : Element := ⟨"a", [("href", .s "#"), ("target", .s "_blank")], "x"⟩

/-- C9 witness: the amended characterization applied to a concrete anchor. -/
theorem c9_witness :
    targetBlankBucket (fun _ _ => none) none [tbWitnessAnchor] ≠ [] :=
  (c9_amended (fun _ _ => none) none tbWitnessAnchor rfl (by decide)).mpr (by decide)
